import Mathlib

/-! # DietMind: the meal-plan markdown extractor of `server.js`

A shallow embedding of `parseMealPlanMarkdown` and the properties of its
line scanner.

Strings are lists of characters.  Every character the scanner inspects lies in
the Basic Multilingual Plane, so working with code points instead of UTF-16
code units changes nothing that the scanner can observe.

The dish objects the scanner allocates live in an explicit heap: a reference is
an index into the heap, the arrays of the three meal sections hold references,
and `currentDish` is a reference (or `none` for `null`).  Pushing onto an array
that was never created is the `TypeError` of the source.
-/

namespace DietMind

/-- A JavaScript string, as its sequence of characters. -/
abbrev Str := List Char

/-! ## String literals of the source -/

/-- The literal `"breakfast"`. -/
def kBreakfast : Str := "breakfast".toList

/-- The literal `"lunch"`. -/
def kLunch : Str := "lunch".toList

/-- The literal `"dinner"`. -/
def kDinner : Str := "dinner".toList

/-- The literal `"recommended foods"`. -/
def kRecommendedFoods : Str := "recommended foods".toList

/-- The literal `"foods to avoid"`. -/
def kFoodsToAvoid : Str := "foods to avoid".toList

/-- The property name `recommendedfoods`. -/
def kRecommendedKey : Str := "recommendedfoods".toList

/-- The property name `foodstoavoid`. -/
def kAvoidKey : Str := "foodstoavoid".toList

/-- The literal `"- "`. -/
def bullet : Str := "- ".toList

/-- The literal `"- **Dish"`. -/
def dishBullet : Str := "- **Dish".toList

/-! ## String primitives -/

/-- The characters `String.prototype.trim` strips and the class `\s` matches:
ECMAScript `WhiteSpace` together with `LineTerminator`. -/
def isWhiteSpace (c : Char) : Bool :=
  let n := c.toNat
  n == 0x09 || n == 0x0A || n == 0x0B || n == 0x0C || n == 0x0D || n == 0x20 ||
  n == 0xA0 || n == 0x1680 || (0x2000 ≤ n && n ≤ 0x200A) || n == 0x2028 ||
  n == 0x2029 || n == 0x202F || n == 0x205F || n == 0x3000 || n == 0xFEFF

/-- ECMAScript `LineTerminator`: the characters the regular expression `.`
does not match. -/
def isLineTerminator (c : Char) : Bool :=
  let n := c.toNat
  n == 0x0A || n == 0x0D || n == 0x2028 || n == 0x2029

/-- The class `\d`: the ten ASCII digits. -/
def isDigit (c : Char) : Bool :=
  let n := c.toNat
  0x30 ≤ n && n ≤ 0x39

/-- The method `String.prototype.trim`. -/
def trim (s : Str) : Str :=
  ((s.dropWhile isWhiteSpace).reverse.dropWhile isWhiteSpace).reverse

/-- The method `String.prototype.startsWith`. -/
def startsWith (s p : Str) : Bool := p.isPrefixOf s

/-- Lower-casing of one character.  The Latin capitals map to their small
letters; KELVIN SIGN maps to `k`; LATIN CAPITAL LETTER I WITH DOT ABOVE maps to
`i` followed by COMBINING DOT ABOVE.  Every other character is mapped by Unicode
to itself or to a character outside ASCII; the scanner compares the result with
ASCII literals only, so those characters are left in place here. -/
def toLowerChar (c : Char) : Str :=
  let n := c.toNat
  if 0x41 ≤ n ∧ n ≤ 0x5A then [Char.ofNat (n + 32)]
  else if n = 0x212A then ['k']
  else if n = 0x130 then ['i', Char.ofNat 0x307]
  else [c]

/-- The method `String.prototype.toLowerCase`. -/
def toLowerCase (s : Str) : Str := s.flatMap toLowerChar

/-- The test `/^##\s+/.test(line)`. -/
def testHeader : Str → Bool
  | '#' :: '#' :: c :: _ => isWhiteSpace c
  | _ => false

/-- The replacement `line.replace(/^##\s+/, '')`: the greedy `\s+` takes every
whitespace character after the two hashes. -/
def replaceHeader (line : Str) : Str :=
  if testHeader line then (line.drop 2).dropWhile isWhiteSpace else line

/-- The replacement `s.replace(/\s/g, '')`. -/
def removeWhiteSpace (s : Str) : Str := s.filter (fun c => !isWhiteSpace c)

/-- The replacement `line.replace(/^- /, '')`. -/
def replaceBullet (line : Str) : Str :=
  if startsWith line bullet then line.drop 2 else line

/-- An attempt to match `- \*\*Dish \d+\*\*: (.+)` at the very start of `s`,
returning capture group 1.  The greedy `\d+` must take every digit, since the
next pattern character is `*`; the greedy `.+` ends the pattern, so it takes the
longest run of characters that are not line terminators. -/
def matchDishAt (s : Str) : Option Str :=
  if startsWith s "- **Dish ".toList then
    let r := s.drop 9
    let digits := r.takeWhile isDigit
    let r2 := r.dropWhile isDigit
    if digits ≠ [] ∧ startsWith r2 "**: ".toList then
      let cap := (r2.drop 4).takeWhile (fun c => !isLineTerminator c)
      if cap ≠ [] then some cap else none
    else none
  else none

/-- The call `line.match(re)` with `re` the pattern `- \*\*Dish \d+\*\*: (.+)`: it is not
anchored, so the leftmost position at which it matches wins.  The result is
capture group 1, or `none` when there is no match. -/
def matchDish : Str → Option Str
  | [] => none
  | c :: cs =>
    match matchDishAt (c :: cs) with
    | some m => some m
    | none => matchDish cs

/-! ## Data model -/

/-- One dish of a meal: `{ dish, benefits }`. -/
structure DishEntry where
  dish : Str
  benefits : List Str
deriving DecidableEq, Repr

/-- The object returned to the front end. -/
structure MealPlan where
  breakfast : List DishEntry
  lunch : List DishEntry
  dinner : List DishEntry
  recommended : List Str
  avoid : List Str
deriving DecidableEq, Repr

/-- The `sections` object.  A property is `none` while it is `undefined`; a meal
array holds references to dish objects. -/
structure Sections where
  breakfast : Option (List Nat)
  lunch : Option (List Nat)
  dinner : Option (List Nat)
  recommendedfoods : Option (List Str)
  foodstoavoid : Option (List Str)
deriving DecidableEq, Repr

/-- The variables of the scan loop together with the heap of dish objects. -/
structure State where
  heap : List DishEntry
  sections : Sections
  currentSection : Option Str
  currentDish : Option Nat
deriving DecidableEq, Repr

/-- The exception a property access on `undefined` raises. -/
inductive JsError where
  | typeError
deriving DecidableEq, Repr

/-- The test `["breakfast", "lunch", "dinner"].includes(currentSection)`. -/
def isMeal (currentSection : Option Str) : Bool :=
  currentSection == some kBreakfast || currentSection == some kLunch ||
  currentSection == some kDinner

/-- The test `currentSection === "recommended foods" || currentSection === "foods to avoid"`. -/
def isFoodList (currentSection : Option Str) : Bool :=
  currentSection == some kRecommendedFoods ||
  currentSection == some kFoodsToAvoid

/-- Reading `sections[key]` where a meal array is expected. -/
def Sections.getDishes (s : Sections) (key : Str) : Option (List Nat) :=
  if key = kBreakfast then s.breakfast
  else if key = kLunch then s.lunch
  else if key = kDinner then s.dinner
  else none

/-- The assignment `sections[key] = arr` for a meal array.  The scanner only
assigns under the three meal keys. -/
def Sections.setDishes (s : Sections) (key : Str) (arr : List Nat) : Sections :=
  if key = kBreakfast then { s with breakfast := some arr }
  else if key = kLunch then { s with lunch := some arr }
  else if key = kDinner then { s with dinner := some arr }
  else s

/-- Reading `sections[key]` where a list of food names is expected. -/
def Sections.getFoods (s : Sections) (key : Str) : Option (List Str) :=
  if key = kRecommendedKey then s.recommendedfoods
  else if key = kAvoidKey then s.foodstoavoid
  else none

/-- The assignment `sections[key] = arr` for a list of food names.  The scanner
only assigns under the two food-list keys. -/
def Sections.setFoods (s : Sections) (key : Str) (arr : List Str) : Sections :=
  if key = kRecommendedKey then { s with recommendedfoods := some arr }
  else if key = kAvoidKey then { s with foodstoavoid := some arr }
  else s

/-- The state before the first line: `sections = {}`, both variables `null`. -/
def State.init : State :=
  { heap := [], sections := ⟨none, none, none, none, none⟩,
    currentSection := none, currentDish := none }

/-- The statement `currentDish.benefits.push(text)` on the object at `addr`. -/
def pushBenefit (heap : List DishEntry) (addr : Nat) (text : Str) : List DishEntry :=
  match heap[addr]? with
  | some e => heap.set addr { e with benefits := e.benefits ++ [text] }
  | none => heap

/-- One iteration of the scan loop on the raw line `raw`. -/
def step (st : State) (raw : Str) : Except JsError State :=
  let line := trim raw
  if testHeader line then
    let currentSection := toLowerCase (replaceHeader line)
    let sections :=
      if isMeal (some currentSection) then
        st.sections.setDishes currentSection []
      else if isFoodList (some currentSection) then
        st.sections.setFoods (removeWhiteSpace currentSection) []
      else st.sections
    .ok { st with sections := sections, currentSection := some currentSection,
                  currentDish := none }
  else if isMeal st.currentSection && startsWith line dishBullet then
    match matchDish line with
    | some m =>
      let addr := st.heap.length
      let heap := st.heap ++ [{ dish := trim m, benefits := [] }]
      match st.sections.getDishes (st.currentSection.getD []) with
      | some arr =>
        .ok { st with
          heap := heap
          sections := st.sections.setDishes (st.currentSection.getD []) (arr ++ [addr])
          currentDish := some addr }
      | none => .error .typeError
    | none => .ok st
  else if isMeal st.currentSection && startsWith line bullet &&
      st.currentDish.isSome && !startsWith line dishBullet then
    match st.currentDish with
    | some addr => .ok { st with heap := pushBenefit st.heap addr (trim (replaceBullet line)) }
    | none => .ok st
  else if isFoodList st.currentSection && startsWith line bullet then
    let key := removeWhiteSpace (st.currentSection.getD [])
    match st.sections.getFoods key with
    | some arr =>
      .ok { st with sections := st.sections.setFoods key (arr ++ [trim (replaceBullet line)]) }
    | none => .error .typeError
  else .ok st

/-- The scan loop over all lines, from the initial state. -/
def scanFrom (st : State) (lines : List Str) : Except JsError State :=
  lines.foldlM step st

/-- The dish object a reference points to. -/
def deref (heap : List DishEntry) (addr : Nat) : DishEntry :=
  heap.getD addr { dish := [], benefits := [] }

/-- The returned object: `sections.x || []` for each of the five properties. -/
def State.result (st : State) : MealPlan :=
  { breakfast := (st.sections.breakfast.getD []).map (deref st.heap)
    lunch := (st.sections.lunch.getD []).map (deref st.heap)
    dinner := (st.sections.dinner.getD []).map (deref st.heap)
    recommended := st.sections.recommendedfoods.getD []
    avoid := st.sections.foodstoavoid.getD [] }

/-- The scanner applied to the lines of a document. -/
def parseLines (lines : List Str) : Except JsError MealPlan :=
  (scanFrom State.init lines).map State.result

/-- The function `parseMealPlanMarkdown`: split on the newline character, scan,
return the five properties. -/
def parseMealPlanMarkdown (markdown : Str) : Except JsError MealPlan :=
  parseLines (markdown.splitOn '\n')

/-! ## The scanner as a state machine over the returned record

The functions below describe the same loop without a heap: the state is the
record that would be returned if the scan stopped now, the section the scan is
in, and whether a dish is open.  `scanFrom_sim` shows that the loop of the
source computes exactly this machine; the properties of the scanner are then
read off the machine. -/

/-- The section a value of `currentSection` selects; `other` stands for `null`
and for every label outside the vocabulary. -/
inductive Sec where
  | breakfast | lunch | dinner | recommended | avoid | other
deriving DecidableEq, Repr

/-- The section selected by a value of `currentSection`. -/
def sectionOf (currentSection : Option Str) : Sec :=
  if currentSection = some kBreakfast then .breakfast
  else if currentSection = some kLunch then .lunch
  else if currentSection = some kDinner then .dinner
  else if currentSection = some kRecommendedFoods then .recommended
  else if currentSection = some kFoodsToAvoid then .avoid
  else .other

/-- The three meal sections. -/
def Sec.isMeal : Sec → Bool
  | .breakfast | .lunch | .dinner => true
  | _ => false

/-- The two food-list sections. -/
def Sec.isFoodList : Sec → Bool
  | .recommended | .avoid => true
  | _ => false

/-- A recognised header restarts its own field as the empty sequence. -/
def MealPlan.restart (p : MealPlan) : Sec → MealPlan
  | .breakfast => { p with breakfast := [] }
  | .lunch => { p with lunch := [] }
  | .dinner => { p with dinner := [] }
  | .recommended => { p with recommended := [] }
  | .avoid => { p with avoid := [] }
  | .other => p

/-- The dishes of a meal section (empty for the other sections). -/
def MealPlan.dishes (p : MealPlan) : Sec → List DishEntry
  | .breakfast => p.breakfast
  | .lunch => p.lunch
  | .dinner => p.dinner
  | _ => []

/-- Replacement of the dishes of a meal section. -/
def MealPlan.withDishes (p : MealPlan) (l : List DishEntry) : Sec → MealPlan
  | .breakfast => { p with breakfast := l }
  | .lunch => { p with lunch := l }
  | .dinner => { p with dinner := l }
  | _ => p

/-- The items of a food-list section (empty for the other sections). -/
def MealPlan.foods (p : MealPlan) : Sec → List Str
  | .recommended => p.recommended
  | .avoid => p.avoid
  | _ => []

/-- Replacement of the items of a food-list section. -/
def MealPlan.withFoods (p : MealPlan) (l : List Str) : Sec → MealPlan
  | .recommended => { p with recommended := l }
  | .avoid => { p with avoid := l }
  | _ => p

/-- A benefit appended to the last dish of a sequence. -/
def addBenefit : List DishEntry → Str → List DishEntry
  | [], _ => []
  | [e], t => [{ e with benefits := e.benefits ++ [t] }]
  | e :: e2 :: es, t => e :: addBenefit (e2 :: es) t

/-- The state of the heap-free machine. -/
structure Machine where
  plan : MealPlan
  cur : Sec
  dishOpen : Bool
deriving DecidableEq, Repr

/-- The heap-free machine before the first line. -/
def Machine.init : Machine :=
  { plan := ⟨[], [], [], [], []⟩, cur := .other, dishOpen := false }

/-- One line of input for the heap-free machine. -/
def Machine.step (m : Machine) (raw : Str) : Machine :=
  let line := trim raw
  if testHeader line then
    let s := sectionOf (some (toLowerCase (replaceHeader line)))
    { plan := m.plan.restart s, cur := s, dishOpen := false }
  else if m.cur.isMeal && startsWith line dishBullet then
    match matchDish line with
    | some name =>
      { m with plan := m.plan.withDishes
                 (m.plan.dishes m.cur ++ [{ dish := trim name, benefits := [] }]) m.cur,
               dishOpen := true }
    | none => m
  else if m.cur.isMeal && startsWith line bullet && m.dishOpen then
    { m with plan := m.plan.withDishes
               (addBenefit (m.plan.dishes m.cur) (trim (replaceBullet line))) m.cur }
  else if m.cur.isFoodList && startsWith line bullet then
    { m with plan := m.plan.withFoods
               (m.plan.foods m.cur ++ [trim (replaceBullet line)]) m.cur }
  else m

/-- The heap-free machine run over a list of lines. -/
def Machine.run (m : Machine) (lines : List Str) : Machine :=
  lines.foldl Machine.step m

/-- The meal array of a section, as the scanner finds it under the section's key. -/
def Sections.mealArray (s : Sections) : Sec → Option (List Nat)
  | .breakfast => s.breakfast
  | .lunch => s.lunch
  | .dinner => s.dinner
  | _ => none

/-- The food array of a section, as the scanner finds it under the section's key. -/
def Sections.foodArray (s : Sections) : Sec → Option (List Str)
  | .recommended => s.recommendedfoods
  | .avoid => s.foodstoavoid
  | _ => none

/-- The references a section's meal array holds (none while it is undefined). -/
def Sections.mealRefs (s : Sections) (k : Sec) : List Nat :=
  (s.mealArray k).getD []

/-- The assignment to the meal array of a section. -/
def Sections.setMeal (s : Sections) (arr : List Nat) : Sec → Sections
  | .breakfast => { s with breakfast := some arr }
  | .lunch => { s with lunch := some arr }
  | .dinner => { s with dinner := some arr }
  | _ => s

/-- The assignment to the food array of a section. -/
def Sections.setFood (s : Sections) (arr : List Str) : Sec → Sections
  | .recommended => { s with recommendedfoods := some arr }
  | .avoid => { s with foodstoavoid := some arr }
  | _ => s

/-- The `sections` object after a section header selecting `k`. -/
def Sections.restart (s : Sections) : Sec → Sections
  | .breakfast => { s with breakfast := some [] }
  | .lunch => { s with lunch := some [] }
  | .dinner => { s with dinner := some [] }
  | .recommended => { s with recommendedfoods := some [] }
  | .avoid => { s with foodstoavoid := some [] }
  | .other => s

/-- The invariant of the scan loop.  The array of the current section exists, an
open dish is the last element of the current meal array, and the references in
the meal arrays are distinct and point into the heap. -/
structure State.WF (st : State) : Prop where
  meal_defined : (sectionOf st.currentSection).isMeal = true →
    ∃ arr, st.sections.mealArray (sectionOf st.currentSection) = some arr ∧
      ∀ r, st.currentDish = some r → ∃ front, arr = front ++ [r]
  food_defined : (sectionOf st.currentSection).isFoodList = true →
    ∃ arr, st.sections.foodArray (sectionOf st.currentSection) = some arr
  dish_meal : st.currentDish.isSome = true → (sectionOf st.currentSection).isMeal = true
  refs_lt : ∀ k, ∀ r ∈ st.sections.mealRefs k, r < st.heap.length
  refs_nodup : ∀ k, (st.sections.mealRefs k).Nodup
  refs_disjoint : ∀ k k2, k ≠ k2 →
    ∀ r ∈ st.sections.mealRefs k, r ∉ st.sections.mealRefs k2

/-- The loop state `st` of the source and the machine state `m` agree. -/
structure Sim (st : State) (m : Machine) : Prop where
  plan : st.result = m.plan
  cur : sectionOf st.currentSection = m.cur
  dishOpen : st.currentDish.isSome = m.dishOpen

/-! ## Vocabulary for the properties of the scanner -/

/-- The document whose lines are `lines`: the lines joined by the newline
character. -/
def joinLines (lines : List Str) : Str := List.intercalate ['\n'] lines

/-- Whether the scanner takes the raw line for a section header. -/
def isHeader (raw : Str) : Bool := testHeader (trim raw)

/-- The lower-cased label of a raw line that is a section header: the value the
scanner stores in `currentSection`. -/
def headerLabel (raw : Str) : Option Str :=
  if testHeader (trim raw) then some (toLowerCase (replaceHeader (trim raw))) else none

/-- The section a raw header line selects. -/
def headerSection (raw : Str) : Option Sec :=
  (headerLabel raw).map (fun label => sectionOf (some label))

/-- The five labels of the vocabulary. -/
def vocabulary : List Str :=
  [kBreakfast, kLunch, kDinner, kRecommendedFoods, kFoodsToAvoid]

/-- A string made of whitespace characters only; the empty string is one. -/
def isBlank (w : Str) : Bool := w.all isWhiteSpace

/-- The list of lines `ys` is a re-formatting of `xs`: blank lines were inserted at any
positions and whitespace was appended to the end of any lines. -/
inductive Reformatted : List Str → List Str → Prop where
  | done : Reformatted [] []
  | blankLine (w : Str) (xs ys : List Str) :
      isBlank w = true → Reformatted xs ys → Reformatted xs (w :: ys)
  | padded (x w : Str) (xs ys : List Str) :
      isBlank w = true → Reformatted xs ys → Reformatted (x :: xs) ((x ++ w) :: ys)

/-- The text a raw line contributes as a benefit or as a food item: the line,
trimmed, starts with the bullet, and the text is what follows it, trimmed. -/
def bulletText (raw : Str) : Option Str :=
  if startsWith (trim raw) bullet then some (trim (replaceBullet (trim raw))) else none

/-- The dish name a raw line contributes: the line, trimmed, starts with the dish
marker and matches the dish pattern, and the name is the captured text, trimmed. -/
def dishName (raw : Str) : Option Str :=
  if startsWith (trim raw) dishBullet then (matchDish (trim raw)).map trim else none

/-- The sequence `out` was extracted from `lines` in input order: there are
strictly increasing line indices, one for each entry of `out`, such that the
entry is what `extract` yields on the line at its index. -/
def InInputOrder {α : Type} (extract : Str → Option α) (lines : List Str) (out : List α) :
    Prop :=
  ∃ idx : List Nat, idx.Pairwise (· < ·) ∧
    List.Forall₂ (fun i x => ∃ l, lines[i]? = some l ∧ extract l = some x) idx out

/-- Every sequence of the record is a subsequence of what the lines seen so far
contribute. -/
structure Ordered (seen : List Str) (p : MealPlan) : Prop where
  foods : ∀ k, List.Sublist (p.foods k) (seen.filterMap bulletText)
  names : ∀ k, List.Sublist ((p.dishes k).map DishEntry.dish) (seen.filterMap dishName)
  benefits : ∀ k, ∀ e ∈ p.dishes k, List.Sublist e.benefits (seen.filterMap bulletText)

/-! ## The documented markdown convention, as a renderer -/

/-- The decimal numeral of a number. -/
def decimal (n : Nat) : Str := Nat.toDigits 10 n

/-- The dish line for the `k`-th dish. -/
def dishLine (k : Nat) (name : Str) : Str :=
  "- **Dish ".toList ++ decimal k ++ "**: ".toList ++ name

/-- The line for one benefit of a dish. -/
def benefitLine (b : Str) : Str := "  - ".toList ++ b

/-- The line for one item of a food list. -/
def itemLine (x : Str) : Str := "- ".toList ++ x

/-- The lines of the dishes of one meal, numbered from `k`. -/
def renderDishes : Nat → List DishEntry → List Str
  | _, [] => []
  | k, e :: es => dishLine k e.dish :: (e.benefits.map benefitLine ++ renderDishes (k + 1) es)

/-- The lines of a plan in the documented convention. -/
def renderLines (p : MealPlan) : List Str :=
  ["## Breakfast".toList] ++ renderDishes 1 p.breakfast ++
  ["## Lunch".toList] ++ renderDishes 1 p.lunch ++
  ["## Dinner".toList] ++ renderDishes 1 p.dinner ++
  ["## Recommended Foods".toList] ++ p.recommended.map itemLine ++
  ["## Foods to Avoid".toList] ++ p.avoid.map itemLine

/-- The document of a plan in the documented convention. -/
def render (p : MealPlan) : Str := joinLines (renderLines p)

/-- A text that is non-empty, has no leading or trailing whitespace and contains
no line terminator. -/
def isPlainText (s : Str) : Bool :=
  match s.head?, s.getLast? with
  | some a, some b =>
    !isWhiteSpace a && !isWhiteSpace b && s.all (fun c => !isLineTerminator c)
  | _, _ => false

/-- A dish whose name and benefits are plain texts and whose benefits do not
begin with `**Dish`. -/
def isPlainDish (e : DishEntry) : Bool :=
  isPlainText e.dish &&
  e.benefits.all (fun b => isPlainText b && !startsWith b "**Dish".toList)

/-- A plan the round trip applies to. -/
def isPlainPlan (p : MealPlan) : Bool :=
  p.breakfast.all isPlainDish && p.lunch.all isPlainDish && p.dinner.all isPlainDish &&
  p.recommended.all isPlainText && p.avoid.all isPlainText

/-! ## Vocabulary for the parse state, sizes and case -/

/-- The text a raw line contributes as a benefit while a dish is open: the line,
trimmed, starts with the bullet and not with the dish marker. -/
def benefitText (raw : Str) : Option Str :=
  if startsWith (trim raw) bullet && !startsWith (trim raw) dishBullet then
    some (trim (replaceBullet (trim raw)))
  else none

/-- The record with five empty sequences. -/
def MealPlan.empty : MealPlan := ⟨[], [], [], [], []⟩

/-- Whether a raw line is a section header whose lower-cased label is one of the
five labels of the vocabulary. -/
def isRecognizedHeader (raw : Str) : Bool :=
  match headerLabel raw with
  | some label => decide (label ∈ vocabulary)
  | none => false

/-- The number of entries of one meal: its dishes and all their benefits. -/
def mealCount (l : List DishEntry) : Nat :=
  l.length + (l.map (fun e => e.benefits.length)).sum

/-- The total number of extracted entries of a record. -/
def entryCount (p : MealPlan) : Nat :=
  mealCount p.breakfast + mealCount p.lunch + mealCount p.dinner +
    p.recommended.length + p.avoid.length

/-- The number of lines that, after trimming, start with the bullet. -/
def bulletCount (lines : List Str) : Nat :=
  lines.countP (fun l => startsWith (trim l) bullet)

/-- Two machine states are in the same section, agree on whether a dish is open,
and hold the same sequence for the section `k`. -/
structure AgreeOn (k : Sec) (m1 m2 : Machine) : Prop where
  cur : m1.cur = m2.cur
  dishOpen : m1.dishOpen = m2.dishOpen
  dishes : m1.plan.dishes k = m2.plan.dishes k
  foods : m1.plan.foods k = m2.plan.foods k

/-- A string that is non-empty and neither starts nor ends with whitespace. -/
def isTrimmed (s : Str) : Bool :=
  match s.head?, s.getLast? with
  | some a, some b => !isWhiteSpace a && !isWhiteSpace b
  | _, _ => false

/-- The last dish of `dishes` was opened by a dish line of `seen` that no header
follows, and its benefits are what the lines after that dish line contribute. -/
def OpenDishAt (seen : List Str) (dishes : List DishEntry) : Prop :=
  ∃ front e pre l post, dishes = front ++ [e] ∧ seen = pre ++ l :: post ∧
    (∀ x ∈ l :: post, isHeader x = false) ∧ dishName l = some e.dish ∧
    (∀ x ∈ post, dishName x = none) ∧ e.benefits = post.filterMap benefitText

/-- The invariant of the open dish, on the heap-free machine. -/
def OpenDish (seen : List Str) (m : Machine) : Prop :=
  m.dishOpen = true → m.cur.isMeal = true ∧ OpenDishAt seen (m.plan.dishes m.cur)

/-- A Latin capital letter of ASCII. -/
def isUpperAscii (c : Char) : Bool := 0x41 ≤ c.toNat && c.toNat ≤ 0x5A

/-- The character `b` is `a`, or the same ASCII letter in the other case. -/
def sameLetter (a b : Char) : Bool :=
  a == b || (isUpperAscii a && b.toNat == a.toNat + 32) ||
    (isUpperAscii b && a.toNat == b.toNat + 32)

/-- The string `y` is `x` with the case of some of its ASCII letters changed. -/
def isCaseVariant : Str → Str → Bool
  | [], [] => true
  | a :: x, b :: y => sameLetter a b && isCaseVariant x y
  | _, _ => false

/-- The lines `ys` are the lines `xs` with the case of ASCII letters changed in
some of the section headers.  The label is the only part of a header line that
holds letters. -/
def isHeaderCaseVariant : List Str → List Str → Bool
  | [], [] => true
  | x :: xs, y :: ys =>
    (x == y || (isHeader x && isCaseVariant x y)) && isHeaderCaseVariant xs ys
  | _, _ => false

/-! ## Keys and sections -/

theorem sectionOf_cases (cs : Option Str) :
    (cs = some kBreakfast ∧ sectionOf cs = .breakfast) ∨
    (cs = some kLunch ∧ sectionOf cs = .lunch) ∨
    (cs = some kDinner ∧ sectionOf cs = .dinner) ∨
    (cs = some kRecommendedFoods ∧ sectionOf cs = .recommended) ∨
    (cs = some kFoodsToAvoid ∧ sectionOf cs = .avoid) ∨
    (cs ≠ some kBreakfast ∧ cs ≠ some kLunch ∧ cs ≠ some kDinner ∧
      cs ≠ some kRecommendedFoods ∧ cs ≠ some kFoodsToAvoid ∧ sectionOf cs = .other) := by
  unfold sectionOf
  by_cases h1 : cs = some kBreakfast
  · subst h1; left; exact ⟨rfl, by decide⟩
  by_cases h2 : cs = some kLunch
  · subst h2; right; left; exact ⟨rfl, by decide⟩
  by_cases h3 : cs = some kDinner
  · subst h3; right; right; left; exact ⟨rfl, by decide⟩
  by_cases h4 : cs = some kRecommendedFoods
  · subst h4; right; right; right; left; exact ⟨rfl, by decide⟩
  by_cases h5 : cs = some kFoodsToAvoid
  · subst h5; right; right; right; right; left; exact ⟨rfl, by decide⟩
  right; right; right; right; right
  refine ⟨h1, h2, h3, h4, h5, ?_⟩
  simp only [h1, h2, h3, h4, h5, if_false]

theorem isMeal_eq (cs : Option Str) : isMeal cs = (sectionOf cs).isMeal := by
  rcases sectionOf_cases cs with ⟨h, e⟩ | ⟨h, e⟩ | ⟨h, e⟩ | ⟨h, e⟩ | ⟨h, e⟩ |
    ⟨h1, h2, h3, h4, h5, e⟩
  · subst h; decide
  · subst h; decide
  · subst h; decide
  · subst h; decide
  · subst h; decide
  · rw [e]; simp [isMeal, h1, h2, h3, Sec.isMeal]

theorem isFoodList_eq (cs : Option Str) : isFoodList cs = (sectionOf cs).isFoodList := by
  rcases sectionOf_cases cs with ⟨h, e⟩ | ⟨h, e⟩ | ⟨h, e⟩ | ⟨h, e⟩ | ⟨h, e⟩ |
    ⟨h1, h2, h3, h4, h5, e⟩
  · subst h; decide
  · subst h; decide
  · subst h; decide
  · subst h; decide
  · subst h; decide
  · rw [e]; simp [isFoodList, h4, h5, Sec.isFoodList]

theorem getDishes_eq (s : Sections) (cs : Option Str) (hm : (sectionOf cs).isMeal = true) :
    s.getDishes (cs.getD []) = s.mealArray (sectionOf cs) := by
  rcases sectionOf_cases cs with ⟨h, e⟩ | ⟨h, e⟩ | ⟨h, e⟩ | ⟨h, e⟩ | ⟨h, e⟩ |
    ⟨h1, h2, h3, h4, h5, e⟩
  · subst h; rfl
  · subst h; rfl
  · subst h; rfl
  · rw [e] at hm; cases hm
  · rw [e] at hm; cases hm
  · rw [e] at hm; cases hm

theorem getFoods_eq (s : Sections) (cs : Option Str) (hm : (sectionOf cs).isFoodList = true) :
    s.getFoods (removeWhiteSpace (cs.getD [])) = s.foodArray (sectionOf cs) := by
  rcases sectionOf_cases cs with ⟨h, e⟩ | ⟨h, e⟩ | ⟨h, e⟩ | ⟨h, e⟩ | ⟨h, e⟩ |
    ⟨h1, h2, h3, h4, h5, e⟩
  · rw [e] at hm; cases hm
  · rw [e] at hm; cases hm
  · rw [e] at hm; cases hm
  · subst h; rfl
  · subst h; rfl
  · rw [e] at hm; cases hm

theorem setDishes_eq (s : Sections) (cs : Option Str) (arr : List Nat)
    (hm : (sectionOf cs).isMeal = true) :
    s.setDishes (cs.getD []) arr = s.setMeal arr (sectionOf cs) := by
  rcases sectionOf_cases cs with ⟨h, e⟩ | ⟨h, e⟩ | ⟨h, e⟩ | ⟨h, e⟩ | ⟨h, e⟩ |
    ⟨h1, h2, h3, h4, h5, e⟩
  · subst h; rfl
  · subst h; rfl
  · subst h; rfl
  · rw [e] at hm; cases hm
  · rw [e] at hm; cases hm
  · rw [e] at hm; cases hm

theorem setFoods_eq (s : Sections) (cs : Option Str) (arr : List Str)
    (hm : (sectionOf cs).isFoodList = true) :
    s.setFoods (removeWhiteSpace (cs.getD [])) arr = s.setFood arr (sectionOf cs) := by
  rcases sectionOf_cases cs with ⟨h, e⟩ | ⟨h, e⟩ | ⟨h, e⟩ | ⟨h, e⟩ | ⟨h, e⟩ |
    ⟨h1, h2, h3, h4, h5, e⟩
  · rw [e] at hm; cases hm
  · rw [e] at hm; cases hm
  · rw [e] at hm; cases hm
  · subst h; rfl
  · subst h; rfl
  · rw [e] at hm; cases hm

/-! ## The record and the `sections` object, section by section -/

theorem MealPlan.ext_sec {p q : MealPlan}
    (hd : ∀ k, p.dishes k = q.dishes k) (hf : ∀ k, p.foods k = q.foods k) : p = q := by
  cases p; cases q
  have h1 := hd .breakfast
  have h2 := hd .lunch
  have h3 := hd .dinner
  have h4 := hf .recommended
  have h5 := hf .avoid
  simp only [MealPlan.dishes, MealPlan.foods] at h1 h2 h3 h4 h5
  simp [h1, h2, h3, h4, h5]

theorem MealPlan.dishes_of_not_meal (p : MealPlan) {k : Sec} (h : k.isMeal = false) :
    p.dishes k = [] := by
  cases k <;> first | rfl | cases h

theorem MealPlan.foods_of_not_food (p : MealPlan) {k : Sec} (h : k.isFoodList = false) :
    p.foods k = [] := by
  cases k <;> first | rfl | cases h

theorem MealPlan.dishes_restart (p : MealPlan) (k k2 : Sec) :
    (p.restart k).dishes k2 = if k2 = k then [] else p.dishes k2 := by
  cases k <;> cases k2 <;> rfl

theorem MealPlan.foods_restart (p : MealPlan) (k k2 : Sec) :
    (p.restart k).foods k2 = if k2 = k then [] else p.foods k2 := by
  cases k <;> cases k2 <;> rfl

theorem MealPlan.dishes_withDishes (p : MealPlan) (l : List DishEntry) (k k2 : Sec)
    (hk : k.isMeal = true) :
    (p.withDishes l k).dishes k2 = if k2 = k then l else p.dishes k2 := by
  cases k <;> cases k2 <;> first | rfl | cases hk

theorem MealPlan.foods_withDishes (p : MealPlan) (l : List DishEntry) (k k2 : Sec) :
    (p.withDishes l k).foods k2 = p.foods k2 := by
  cases k <;> cases k2 <;> rfl

theorem MealPlan.foods_withFoods (p : MealPlan) (l : List Str) (k k2 : Sec)
    (hk : k.isFoodList = true) :
    (p.withFoods l k).foods k2 = if k2 = k then l else p.foods k2 := by
  cases k <;> cases k2 <;> first | rfl | cases hk

theorem MealPlan.dishes_withFoods (p : MealPlan) (l : List Str) (k k2 : Sec) :
    (p.withFoods l k).dishes k2 = p.dishes k2 := by
  cases k <;> cases k2 <;> rfl

theorem State.result_dishes (st : State) (k : Sec) :
    st.result.dishes k = (st.sections.mealRefs k).map (deref st.heap) := by
  cases k <;> rfl

theorem State.result_foods (st : State) (k : Sec) :
    st.result.foods k = (st.sections.foodArray k).getD [] := by
  cases k <;> rfl

theorem Sections.mealRefs_restart (s : Sections) (k k2 : Sec) :
    (s.restart k).mealRefs k2 = if k2 = k then [] else s.mealRefs k2 := by
  cases k <;> cases k2 <;> rfl

theorem Sections.foodArray_restart (s : Sections) (k k2 : Sec) :
    ((s.restart k).foodArray k2).getD [] = if k2 = k then [] else (s.foodArray k2).getD [] := by
  cases k <;> cases k2 <;> rfl

theorem Sections.mealArray_restart_self (s : Sections) (k : Sec) (hk : k.isMeal = true) :
    (s.restart k).mealArray k = some [] := by
  cases k <;> first | rfl | cases hk

theorem Sections.foodArray_restart_self (s : Sections) (k : Sec) (hk : k.isFoodList = true) :
    (s.restart k).foodArray k = some [] := by
  cases k <;> first | rfl | cases hk

theorem Sections.mealArray_setMeal (s : Sections) (arr : List Nat) (k k2 : Sec)
    (hk : k.isMeal = true) :
    (s.setMeal arr k).mealArray k2 = if k2 = k then some arr else s.mealArray k2 := by
  cases k <;> cases k2 <;> first | rfl | cases hk

theorem Sections.mealRefs_setMeal (s : Sections) (arr : List Nat) (k k2 : Sec)
    (hk : k.isMeal = true) :
    (s.setMeal arr k).mealRefs k2 = if k2 = k then arr else s.mealRefs k2 := by
  cases k <;> cases k2 <;> first | rfl | cases hk

theorem Sections.foodArray_setMeal (s : Sections) (arr : List Nat) (k k2 : Sec) :
    (s.setMeal arr k).foodArray k2 = s.foodArray k2 := by
  cases k <;> cases k2 <;> rfl

theorem Sections.foodArray_setFood (s : Sections) (arr : List Str) (k k2 : Sec)
    (hk : k.isFoodList = true) :
    (s.setFood arr k).foodArray k2 = if k2 = k then some arr else s.foodArray k2 := by
  cases k <;> cases k2 <;> first | rfl | cases hk

theorem Sections.mealArray_setFood (s : Sections) (arr : List Str) (k k2 : Sec) :
    (s.setFood arr k).mealArray k2 = s.mealArray k2 := by
  cases k <;> cases k2 <;> rfl

theorem Sections.mealRefs_setFood (s : Sections) (arr : List Str) (k k2 : Sec) :
    (s.setFood arr k).mealRefs k2 = s.mealRefs k2 := by
  cases k <;> cases k2 <;> rfl

/-- The `sections` object a header line leaves behind. -/
theorem header_sections (s : Sections) (cs : Str) :
    (if isMeal (some cs) then s.setDishes cs []
      else if isFoodList (some cs) then s.setFoods (removeWhiteSpace cs) []
      else s) = s.restart (sectionOf (some cs)) := by
  rcases sectionOf_cases (some cs) with ⟨h, e⟩ | ⟨h, e⟩ | ⟨h, e⟩ | ⟨h, e⟩ | ⟨h, e⟩ |
    ⟨h1, h2, h3, h4, h5, e⟩
  · cases h; rfl
  · cases h; rfl
  · cases h; rfl
  · cases h; rfl
  · cases h; rfl
  · rw [e, isMeal_eq, isFoodList_eq, e]; rfl

/-! ## The heap -/

theorem deref_append_lt (heap : List DishEntry) (e : DishEntry) {r : Nat}
    (h : r < heap.length) : deref (heap ++ [e]) r = deref heap r := by
  simp [deref, List.getD_eq_getElem?_getD, List.getElem?_append_left h]

theorem deref_append_length (heap : List DishEntry) (e : DishEntry) :
    deref (heap ++ [e]) heap.length = e := by
  simp [deref, List.getD_eq_getElem?_getD]

theorem length_pushBenefit (heap : List DishEntry) (r : Nat) (t : Str) :
    (pushBenefit heap r t).length = heap.length := by
  unfold pushBenefit
  split <;> simp

theorem deref_pushBenefit_self (heap : List DishEntry) {r : Nat} (t : Str)
    (h : r < heap.length) :
    deref (pushBenefit heap r t) r =
      { deref heap r with benefits := (deref heap r).benefits ++ [t] } := by
  simp [deref, pushBenefit, List.getD_eq_getElem?_getD, List.getElem?_eq_getElem h,
    List.getElem?_set_self]
  rw [List.getElem?_eq_getElem (by simpa using h)]
  simp

theorem deref_pushBenefit_ne (heap : List DishEntry) {r r2 : Nat} (t : Str)
    (h : r2 ≠ r) : deref (pushBenefit heap r t) r2 = deref heap r2 := by
  unfold pushBenefit deref
  split
  · simp [List.getD_eq_getElem?_getD, List.getElem?_set_ne (Ne.symm h)]
  · rfl

theorem addBenefit_append (l : List DishEntry) (e : DishEntry) (t : Str) :
    addBenefit (l ++ [e]) t = l ++ [{ e with benefits := e.benefits ++ [t] }] := by
  induction l with
  | nil => rfl
  | cons a l ih =>
    cases l with
    | nil => rfl
    | cons b l => simpa [addBenefit] using ih

/-! ## The loop of the source computes the heap-free machine -/

theorem step_header (st : State) (raw : Str) (h : testHeader (trim raw) = true) :
    step st raw = .ok { st with
      sections := st.sections.restart (sectionOf (some (toLowerCase (replaceHeader (trim raw)))))
      currentSection := some (toLowerCase (replaceHeader (trim raw)))
      currentDish := none } := by
  unfold step
  simp only [h, if_true, header_sections]

theorem Machine.header_step (m : Machine) (raw : Str) (h : testHeader (trim raw) = true) :
    m.step raw =
      { plan := m.plan.restart (sectionOf (some (toLowerCase (replaceHeader (trim raw)))))
        cur := sectionOf (some (toLowerCase (replaceHeader (trim raw))))
        dishOpen := false } := by
  unfold Machine.step
  simp only [h, if_true]

theorem step_sim_header (st : State) (m : Machine) (raw : Str) (wf : st.WF) (sim : Sim st m)
    (h : testHeader (trim raw) = true) :
    ∃ st2, step st raw = .ok st2 ∧ st2.WF ∧ Sim st2 (m.step raw) := by
  refine ⟨_, step_header st raw h, ?_, ?_⟩
  · constructor
    · intro hm
      exact ⟨[], Sections.mealArray_restart_self _ _ hm, fun r hr => by cases hr⟩
    · intro hf
      exact ⟨[], Sections.foodArray_restart_self _ _ hf⟩
    · intro hd; cases hd
    · intro k r hr
      rw [Sections.mealRefs_restart] at hr
      split at hr
      · cases hr
      · exact wf.refs_lt k r hr
    · intro k
      rw [Sections.mealRefs_restart]
      split
      · exact List.nodup_nil
      · exact wf.refs_nodup k
    · intro k k2 hk r hr
      rw [Sections.mealRefs_restart] at hr ⊢
      split at hr
      · cases hr
      · split
        · exact List.not_mem_nil r
        · exact wf.refs_disjoint k k2 hk r hr
  · rw [Machine.header_step m raw h]
    constructor
    · apply MealPlan.ext_sec
      · intro k
        rw [State.result_dishes, MealPlan.dishes_restart, ← sim.plan, State.result_dishes]
        simp only [Sections.mealRefs_restart]
        split <;> rfl
      · intro k
        rw [State.result_foods, MealPlan.foods_restart, ← sim.plan, State.result_foods]
        simp only [Sections.foodArray_restart]
    · rfl
    · rfl

theorem step_dish (st : State) (raw name : Str) (arr : List Nat)
    (h : testHeader (trim raw) = false)
    (hm : (sectionOf st.currentSection).isMeal = true)
    (hd : startsWith (trim raw) dishBullet = true)
    (hmatch : matchDish (trim raw) = some name)
    (harr : st.sections.mealArray (sectionOf st.currentSection) = some arr) :
    step st raw = .ok { st with
      heap := st.heap ++ [{ dish := trim name, benefits := [] }]
      sections := st.sections.setMeal (arr ++ [st.heap.length]) (sectionOf st.currentSection)
      currentDish := some st.heap.length } := by
  unfold step
  simp only [h, isMeal_eq, hm, hd, hmatch, getDishes_eq _ _ hm, harr, setDishes_eq _ _ _ hm]
  simp

theorem step_dish_none (st : State) (raw : Str)
    (h : testHeader (trim raw) = false)
    (hm : (sectionOf st.currentSection).isMeal = true)
    (hd : startsWith (trim raw) dishBullet = true)
    (hmatch : matchDish (trim raw) = none) :
    step st raw = .ok st := by
  unfold step
  simp only [h, isMeal_eq, hm, hd, hmatch]
  simp

theorem step_benefit (st : State) (raw : Str) (r : Nat)
    (h : testHeader (trim raw) = false)
    (hm : (sectionOf st.currentSection).isMeal = true)
    (hd : startsWith (trim raw) dishBullet = false)
    (hb : startsWith (trim raw) bullet = true)
    (hr : st.currentDish = some r) :
    step st raw = .ok { st with
      heap := pushBenefit st.heap r (trim (replaceBullet (trim raw))) } := by
  unfold step
  simp only [h, isMeal_eq, hm, hd, hb, hr]
  simp

theorem step_food (st : State) (raw : Str) (arr : List Str)
    (h : testHeader (trim raw) = false)
    (hf : (sectionOf st.currentSection).isFoodList = true)
    (hb : startsWith (trim raw) bullet = true)
    (harr : st.sections.foodArray (sectionOf st.currentSection) = some arr) :
    step st raw = .ok { st with
      sections := st.sections.setFood (arr ++ [trim (replaceBullet (trim raw))])
        (sectionOf st.currentSection) } := by
  have hm : (sectionOf st.currentSection).isMeal = false := by
    revert hf; cases sectionOf st.currentSection <;> simp [Sec.isMeal, Sec.isFoodList]
  unfold step
  simp only [h, isMeal_eq, isFoodList_eq, hm, hf, hb, getFoods_eq _ _ hf, harr,
    setFoods_eq _ _ _ hf]
  simp

theorem step_skip (st : State) (raw : Str)
    (h : testHeader (trim raw) = false)
    (h1 : ((sectionOf st.currentSection).isMeal && startsWith (trim raw) dishBullet) = false)
    (h2 : ((sectionOf st.currentSection).isMeal && startsWith (trim raw) bullet &&
      st.currentDish.isSome) = false)
    (h3 : ((sectionOf st.currentSection).isFoodList && startsWith (trim raw) bullet) = false) :
    step st raw = .ok st := by
  unfold step
  simp only [h, isMeal_eq, isFoodList_eq, h1, h3]
  cases hc : st.currentDish with
  | none => simp
  | some r =>
    rw [hc] at h2
    simp only [Option.isSome_some, Bool.and_true] at h2
    simp [h2]

theorem step_sim_dish (st : State) (m : Machine) (raw name : Str) (wf : st.WF)
    (sim : Sim st m)
    (h : testHeader (trim raw) = false)
    (hm : (sectionOf st.currentSection).isMeal = true)
    (hd : startsWith (trim raw) dishBullet = true)
    (hmatch : matchDish (trim raw) = some name) :
    ∃ st2, step st raw = .ok st2 ∧ st2.WF ∧ Sim st2 (m.step raw) := by
  obtain ⟨arr, harr, -⟩ := wf.meal_defined hm
  have hrefs : st.sections.mealRefs (sectionOf st.currentSection) = arr := by
    simp [Sections.mealRefs, harr]
  have hlt : ∀ k, ∀ r ∈ st.sections.mealRefs k, r ≠ st.heap.length :=
    fun k r hr => Nat.ne_of_lt (wf.refs_lt k r hr)
  refine ⟨_, step_dish st raw name arr h hm hd hmatch harr, ?_, ?_⟩
  · constructor
    · intro _
      refine ⟨arr ++ [st.heap.length], ?_, ?_⟩
      · simp [Sections.mealArray_setMeal _ _ _ _ hm]
      · intro r hr
        simp only [Option.some.injEq] at hr
        exact ⟨arr, by rw [hr]⟩
    · intro hf
      exfalso
      revert hm hf
      simp only []
      cases sectionOf st.currentSection <;> simp [Sec.isMeal, Sec.isFoodList]
    · intro _; exact hm
    · intro k r hr
      simp only [Sections.mealRefs_setMeal _ _ _ _ hm, List.length_append, List.length_singleton]
        at hr ⊢
      split at hr
      · rcases List.mem_append.1 hr with hr | hr
        · have := wf.refs_lt _ r (hrefs ▸ hr); omega
        · simp only [List.mem_singleton] at hr; omega
      · have := wf.refs_lt k r hr; omega
    · intro k
      simp only [Sections.mealRefs_setMeal _ _ _ _ hm]
      split
      · rw [List.nodup_append]
        refine ⟨hrefs ▸ wf.refs_nodup _, List.nodup_singleton _, ?_⟩
        intro a ha hb
        simp only [List.mem_singleton] at hb
        exact hlt _ a (hrefs ▸ ha) hb
      · exact wf.refs_nodup k
    · intro k k2 hk r hr
      simp only [Sections.mealRefs_setMeal _ _ _ _ hm] at hr ⊢
      split at hr
      · rename_i hk1
        rw [if_neg (fun e => hk (hk1.trans e.symm))]
        rcases List.mem_append.1 hr with hr | hr
        · exact wf.refs_disjoint _ k2 (hk1 ▸ hk) r (hrefs ▸ hr)
        · simp only [List.mem_singleton] at hr
          intro hc
          exact hlt k2 r hc hr
      · split
        · rename_i hk2
          intro hc
          rcases List.mem_append.1 hc with hc | hc
          · exact wf.refs_disjoint k _ (hk2 ▸ hk) r hr (hrefs ▸ hc)
          · simp only [List.mem_singleton] at hc
            exact hlt k r hr hc
        · exact wf.refs_disjoint k k2 hk r hr
  · have hstep : m.step raw = { m with
        plan := m.plan.withDishes
          (m.plan.dishes m.cur ++ [{ dish := trim name, benefits := [] }]) m.cur
        dishOpen := true } := by
      unfold Machine.step
      simp only [h, ← sim.cur, hm, hd, hmatch]
      simp
    rw [hstep]
    have hmc : m.cur.isMeal = true := sim.cur ▸ hm
    constructor
    · apply MealPlan.ext_sec
      · intro k
        rw [State.result_dishes, MealPlan.dishes_withDishes _ _ _ _ hmc, ← sim.plan,
          State.result_dishes, State.result_dishes, ← sim.cur]
        simp only [Sections.mealRefs_setMeal _ _ _ _ hm]
        split
        · rw [hrefs, List.map_append, List.map_singleton, deref_append_length]
          congr 1
          apply List.map_congr_left
          intro r hr
          exact deref_append_lt _ _ (wf.refs_lt _ r (hrefs ▸ hr))
        · apply List.map_congr_left
          intro r hr
          exact deref_append_lt _ _ (wf.refs_lt _ r hr)
      · intro k
        rw [State.result_foods, MealPlan.foods_withDishes, ← sim.plan, State.result_foods]
        simp only [Sections.foodArray_setMeal]
    · exact sim.cur
    · rfl

theorem Sec.not_food_of_meal {k : Sec} (h : k.isMeal = true) : k.isFoodList = false := by
  cases k <;> first | rfl | cases h

theorem Sec.not_meal_of_food {k : Sec} (h : k.isFoodList = true) : k.isMeal = false := by
  cases k <;> first | rfl | cases h

theorem step_sim_benefit (st : State) (m : Machine) (raw : Str) (r : Nat) (wf : st.WF)
    (sim : Sim st m)
    (h : testHeader (trim raw) = false)
    (hm : (sectionOf st.currentSection).isMeal = true)
    (hd : startsWith (trim raw) dishBullet = false)
    (hb : startsWith (trim raw) bullet = true)
    (hr : st.currentDish = some r) :
    ∃ st2, step st raw = .ok st2 ∧ st2.WF ∧ Sim st2 (m.step raw) := by
  obtain ⟨arr, harr, hlast⟩ := wf.meal_defined hm
  obtain ⟨front, hfront⟩ := hlast r hr
  have hrefs : st.sections.mealRefs (sectionOf st.currentSection) = front ++ [r] := by
    simp [Sections.mealRefs, harr, hfront]
  have hnd := wf.refs_nodup (sectionOf st.currentSection)
  rw [hrefs, List.nodup_append] at hnd
  have hrfront : ∀ a ∈ front, a ≠ r := fun a ha e => hnd.2.2 ha (by simp [e])
  have hrlt : r < st.heap.length := wf.refs_lt (sectionOf st.currentSection) r (by simp [hrefs])
  refine ⟨_, step_benefit st raw r h hm hd hb hr, ?_, ?_⟩
  · exact ⟨wf.meal_defined, wf.food_defined, wf.dish_meal,
      fun k a ha => by simpa [length_pushBenefit] using wf.refs_lt k a ha,
      wf.refs_nodup, wf.refs_disjoint⟩
  · have hopen : m.dishOpen = true := by rw [← sim.dishOpen, hr]; rfl
    have hstep : m.step raw = { m with
        plan := m.plan.withDishes
          (addBenefit (m.plan.dishes m.cur) (trim (replaceBullet (trim raw)))) m.cur } := by
      unfold Machine.step
      simp only [h, ← sim.cur, hm, hd, hb, hopen]
      simp
    rw [hstep]
    have hmc : m.cur.isMeal = true := sim.cur ▸ hm
    constructor
    · apply MealPlan.ext_sec
      · intro k
        rw [State.result_dishes, MealPlan.dishes_withDishes _ _ _ _ hmc, ← sim.plan,
          State.result_dishes, State.result_dishes, ← sim.cur]
        split
        · rename_i hk
          subst hk
          simp only [hrefs, List.map_append, List.map_singleton, addBenefit_append,
            deref_pushBenefit_self _ _ hrlt]
          congr 1
          apply List.map_congr_left
          intro a ha
          exact deref_pushBenefit_ne _ _ (hrfront a ha)
        · rename_i hk
          apply List.map_congr_left
          intro a ha
          apply deref_pushBenefit_ne
          intro e
          subst e
          exact wf.refs_disjoint k _ hk a ha (by simp [hrefs])
      · intro k
        rw [State.result_foods, MealPlan.foods_withDishes, ← sim.plan, State.result_foods]
    · exact sim.cur
    · exact sim.dishOpen

theorem step_sim_food (st : State) (m : Machine) (raw : Str) (wf : st.WF) (sim : Sim st m)
    (h : testHeader (trim raw) = false)
    (hf : (sectionOf st.currentSection).isFoodList = true)
    (hb : startsWith (trim raw) bullet = true) :
    ∃ st2, step st raw = .ok st2 ∧ st2.WF ∧ Sim st2 (m.step raw) := by
  obtain ⟨arr, harr⟩ := wf.food_defined hf
  have hm := Sec.not_meal_of_food hf
  refine ⟨_, step_food st raw arr h hf hb harr, ?_, ?_⟩
  · constructor
    · intro hm2
      simp only [hm] at hm2
      cases hm2
    · intro _
      exact ⟨arr ++ [trim (replaceBullet (trim raw))],
        by simp [Sections.foodArray_setFood _ _ _ _ hf]⟩
    · exact wf.dish_meal
    · intro k r hr
      rw [Sections.mealRefs_setFood] at hr
      exact wf.refs_lt k r hr
    · intro k
      rw [Sections.mealRefs_setFood]
      exact wf.refs_nodup k
    · intro k k2 hk r hr
      rw [Sections.mealRefs_setFood] at hr ⊢
      exact wf.refs_disjoint k k2 hk r hr
  · have hstep : m.step raw = { m with
        plan := m.plan.withFoods
          (m.plan.foods m.cur ++ [trim (replaceBullet (trim raw))]) m.cur } := by
      unfold Machine.step
      simp only [h, ← sim.cur, hm, hf, hb]
      simp
    rw [hstep]
    have hfc : m.cur.isFoodList = true := sim.cur ▸ hf
    constructor
    · apply MealPlan.ext_sec
      · intro k
        rw [State.result_dishes, MealPlan.dishes_withFoods, ← sim.plan, State.result_dishes]
        simp only [Sections.mealRefs_setFood]
      · intro k
        rw [State.result_foods, MealPlan.foods_withFoods _ _ _ _ hfc, ← sim.plan,
          State.result_foods, State.result_foods, ← sim.cur]
        simp only [Sections.foodArray_setFood _ _ _ _ hf]
        split
        · rename_i hk
          subst hk
          simp [harr]
        · rfl
    · exact sim.cur
    · exact sim.dishOpen

theorem step_sim_skip (st : State) (m : Machine) (raw : Str) (wf : st.WF) (sim : Sim st m)
    (h : testHeader (trim raw) = false)
    (h1 : ((sectionOf st.currentSection).isMeal && startsWith (trim raw) dishBullet) = false)
    (h2 : ((sectionOf st.currentSection).isMeal && startsWith (trim raw) bullet &&
      st.currentDish.isSome) = false)
    (h3 : ((sectionOf st.currentSection).isFoodList && startsWith (trim raw) bullet) = false) :
    ∃ st2, step st raw = .ok st2 ∧ st2.WF ∧ Sim st2 (m.step raw) := by
  refine ⟨st, step_skip st raw h h1 h2 h3, wf, ?_⟩
  have hstep : m.step raw = m := by
    unfold Machine.step
    rw [sim.cur, sim.dishOpen] at h2
    rw [sim.cur] at h1 h3
    simp only [h, h1, h2, h3]
    simp
  rw [hstep]
  exact sim

/-- One iteration of the loop of the source succeeds, keeps the invariant, and
is one step of the heap-free machine. -/
theorem step_sim (st : State) (m : Machine) (raw : Str) (wf : st.WF) (sim : Sim st m) :
    ∃ st2, step st raw = .ok st2 ∧ st2.WF ∧ Sim st2 (m.step raw) := by
  cases h : testHeader (trim raw) with
  | true => exact step_sim_header st m raw wf sim h
  | false =>
    cases hm : (sectionOf st.currentSection).isMeal with
    | true =>
      cases hd : startsWith (trim raw) dishBullet with
      | true =>
        cases hmatch : matchDish (trim raw) with
        | some name => exact step_sim_dish st m raw name wf sim h hm hd hmatch
        | none =>
          refine ⟨st, step_dish_none st raw h hm hd hmatch, wf, ?_⟩
          have hstep : m.step raw = m := by
            unfold Machine.step
            simp only [h, ← sim.cur, hm, hd, hmatch]
            simp
          rw [hstep]
          exact sim
      | false =>
        cases hb : startsWith (trim raw) bullet with
        | true =>
          cases hr : st.currentDish with
          | some r => exact step_sim_benefit st m raw r wf sim h hm hd hb hr
          | none =>
            exact step_sim_skip st m raw wf sim h (by simp [hd]) (by simp [hr])
              (by simp [Sec.not_food_of_meal hm])
        | false =>
          exact step_sim_skip st m raw wf sim h (by simp [hd]) (by simp [hb]) (by simp [hb])
    | false =>
      cases hf : (sectionOf st.currentSection).isFoodList with
      | true =>
        cases hb : startsWith (trim raw) bullet with
        | true => exact step_sim_food st m raw wf sim h hf hb
        | false =>
          exact step_sim_skip st m raw wf sim h (by simp [hm]) (by simp [hm]) (by simp [hb])
      | false =>
        exact step_sim_skip st m raw wf sim h (by simp [hm]) (by simp [hm]) (by simp [hf])

theorem State.init_wf : State.init.WF := by
  constructor
  · intro h; cases h
  · intro h; cases h
  · intro h; cases h
  · intro k r hr; cases k <;> cases hr
  · intro k; cases k <;> exact List.nodup_nil
  · intro k k2 _ r hr; cases k <;> cases hr

theorem sim_init : Sim State.init Machine.init := ⟨rfl, rfl, rfl⟩

/-- The loop of the source, started in a state that satisfies the invariant,
runs to completion and ends in the state of the heap-free machine. -/
theorem scanFrom_sim (lines : List Str) (st : State) (m : Machine) (wf : st.WF)
    (sim : Sim st m) :
    ∃ st2, scanFrom st lines = .ok st2 ∧ st2.WF ∧ Sim st2 (m.run lines) := by
  induction lines generalizing st m with
  | nil => exact ⟨st, rfl, wf, sim⟩
  | cons l ls ih =>
    obtain ⟨st1, h1, wf1, sim1⟩ := step_sim st m l wf sim
    obtain ⟨st2, h2, wf2, sim2⟩ := ih st1 (m.step l) wf1 sim1
    refine ⟨st2, ?_, wf2, sim2⟩
    simp only [scanFrom, List.foldlM_cons, h1] at h2 ⊢
    exact h2

/-- The scanner returns the record of the heap-free machine, for every input. -/
theorem parseLines_eq (lines : List Str) :
    parseLines lines = .ok (Machine.init.run lines).plan := by
  obtain ⟨st, h, -, sim⟩ := scanFrom_sim lines State.init Machine.init State.init_wf sim_init
  simp only [parseLines, h, Except.map, sim.plan]

/-! ## Trimming -/

theorem isBlank_iff {w : Str} : isBlank w = true ↔ ∀ c ∈ w, isWhiteSpace c = true := by
  simp [isBlank, List.all_eq_true]

theorem trim_of_isBlank {w : Str} (h : isBlank w = true) : trim w = [] := by
  have h1 : w.dropWhile isWhiteSpace = [] := List.dropWhile_eq_nil_iff.2 (isBlank_iff.1 h)
  simp [trim, h1]

theorem trim_append_blank (x : Str) {w : Str} (h : isBlank w = true) :
    trim (x ++ w) = trim x := by
  have hw := isBlank_iff.1 h
  unfold trim
  rw [List.dropWhile_append]
  split
  · rename_i he
    have h1 : x.dropWhile isWhiteSpace = [] := by simpa using he
    rw [h1, List.dropWhile_eq_nil_iff.2 hw]
  · rw [List.reverse_append,
      List.dropWhile_append_of_pos (fun a ha => hw a (List.mem_reverse.1 ha))]

theorem trim_nil : trim [] = [] := rfl

/-- A trimmed string does not end with whitespace. -/
theorem getLast?_trim (s : Str) (b : Char) (h : (trim s).getLast? = some b) :
    isWhiteSpace b = false := by
  have hne : trim s ≠ [] := fun e => by rw [e] at h; cases h
  rw [List.getLast?_eq_getLast _ hne] at h
  simp only [Option.some.injEq] at h
  have := List.rdropWhile_last_not isWhiteSpace (s.dropWhile isWhiteSpace) hne
  rw [← h]
  simpa using this

/-- A trimmed string does not start with whitespace. -/
theorem head?_trim (s : Str) (a : Char) (h : (trim s).head? = some a) :
    isWhiteSpace a = false := by
  obtain ⟨t, ht⟩ := List.rdropWhile_prefix isWhiteSpace (s.dropWhile isWhiteSpace)
  have hd : (s.dropWhile isWhiteSpace).head? = some a := by
    have e : trim s = (s.dropWhile isWhiteSpace).rdropWhile isWhiteSpace := rfl
    rw [← ht, ← e]
    cases hts : trim s with
    | nil => rw [hts] at h; cases h
    | cons c cs => rw [hts] at h; simpa using h
  have hne : s.dropWhile isWhiteSpace ≠ [] := fun e => by rw [e] at hd; cases hd
  have := List.head_dropWhile_not isWhiteSpace s hne
  rw [List.head?_eq_head hne] at hd
  simp only [Option.some.injEq] at hd
  rw [← hd]
  simpa using this

/-! ## Plain texts and the lines of the renderer -/

theorem trim_eq_rdropWhile (s : Str) :
    trim s = (s.dropWhile isWhiteSpace).rdropWhile isWhiteSpace := rfl

/-- A string that neither starts nor ends with whitespace is its own trim. -/
theorem trim_eq_self {s : Str} {a b : Char} (ha : s.head? = some a) (hb : s.getLast? = some b)
    (hwa : isWhiteSpace a = false) (hwb : isWhiteSpace b = false) : trim s = s := by
  have h1 : s.dropWhile isWhiteSpace = s := by
    cases s with
    | nil => rfl
    | cons c cs =>
      simp only [List.head?_cons, Option.some.injEq] at ha
      subst ha
      simp [List.dropWhile_cons, hwa]
  rw [trim_eq_rdropWhile, h1, List.rdropWhile_eq_self_iff]
  intro hl
  rw [List.getLast?_eq_getLast _ hl] at hb
  simp only [Option.some.injEq] at hb
  rw [hb, hwb]
  simp

theorem isPlainText_iff {s : Str} :
    isPlainText s = true ↔ ∃ a b, s.head? = some a ∧ s.getLast? = some b ∧
      isWhiteSpace a = false ∧ isWhiteSpace b = false ∧
      ∀ c ∈ s, isLineTerminator c = false := by
  unfold isPlainText
  constructor
  · intro h
    split at h
    · rename_i a b ha hb
      simp only [Bool.and_eq_true, Bool.not_eq_true', List.all_eq_true] at h
      exact ⟨a, b, ha, hb, h.1.1, h.1.2, h.2⟩
    · cases h
  · rintro ⟨a, b, ha, hb, h1, h2, h3⟩
    rw [ha, hb]
    simp only [Bool.and_eq_true, Bool.not_eq_true', List.all_eq_true]
    exact ⟨⟨h1, h2⟩, h3⟩

theorem trim_of_isPlainText {s : Str} (h : isPlainText s = true) : trim s = s := by
  obtain ⟨a, b, ha, hb, h1, h2, -⟩ := isPlainText_iff.1 h
  exact trim_eq_self ha hb h1 h2

theorem ne_nil_of_isPlainText {s : Str} (h : isPlainText s = true) : s ≠ [] := by
  obtain ⟨a, b, ha, -, -, -, -⟩ := isPlainText_iff.1 h
  intro e
  subst e
  cases ha

theorem no_newline_of_isPlainText {s : Str} (h : isPlainText s = true) : '\n' ∉ s := by
  obtain ⟨a, b, -, -, -, -, h3⟩ := isPlainText_iff.1 h
  intro hm
  have := h3 _ hm
  revert this
  decide

/-- The trim of a string that ends in a plain text and starts with a character
that is not whitespace. -/
theorem trim_append_plain {pre s : Str} {a : Char} (hp : pre.head? = some a)
    (hwa : isWhiteSpace a = false) (h : isPlainText s = true) : trim (pre ++ s) = pre ++ s := by
  obtain ⟨_, b, -, hb, -, h2, -⟩ := isPlainText_iff.1 h
  refine trim_eq_self (a := a) (b := b) ?_ ?_ hwa h2
  · cases pre with
    | nil => cases hp
    | cons c cs => simpa using hp
  · rw [List.getLast?_append, hb]
    rfl

/-! ### Decimal numerals -/

theorem isDigit_digitChar (d : Nat) (h : d < 10) : isDigit (Nat.digitChar d) = true := by
  interval_cases d <;> decide

theorem toDigitsCore_digits (fuel : Nat) (n : Nat) (acc : List Char)
    (hacc : ∀ c ∈ acc, isDigit c = true) :
    ∀ c ∈ Nat.toDigitsCore 10 fuel n acc, isDigit c = true := by
  induction fuel generalizing n acc with
  | zero => simpa [Nat.toDigitsCore] using hacc
  | succ f ih =>
    have hd : isDigit (Nat.digitChar (n % 10)) = true :=
      isDigit_digitChar _ (Nat.mod_lt _ (by decide))
    have hacc2 : ∀ c ∈ Nat.digitChar (n % 10) :: acc, isDigit c = true := by
      intro c hc
      rcases List.mem_cons.1 hc with rfl | hc
      · exact hd
      · exact hacc c hc
    simp only [Nat.toDigitsCore]
    split
    · exact hacc2
    · exact ih _ _ hacc2

theorem toDigitsCore_ne_nil (fuel : Nat) (n : Nat) (acc : List Char) (hacc : acc ≠ []) :
    Nat.toDigitsCore 10 fuel n acc ≠ [] := by
  induction fuel generalizing n acc with
  | zero => simpa [Nat.toDigitsCore] using hacc
  | succ f ih =>
    simp only [Nat.toDigitsCore]
    split
    · exact List.cons_ne_nil _ _
    · exact ih _ _ (List.cons_ne_nil _ _)

theorem decimal_digits (n : Nat) : ∀ c ∈ decimal n, isDigit c = true :=
  toDigitsCore_digits _ _ [] (fun _ h => by cases h)

theorem decimal_ne_nil (n : Nat) : decimal n ≠ [] := by
  unfold decimal Nat.toDigits
  simp only [Nat.toDigitsCore]
  split
  · exact List.cons_ne_nil _ _
  · exact toDigitsCore_ne_nil _ _ _ (List.cons_ne_nil _ _)

/-! ### The dish line -/

theorem dishLine_eq (k : Nat) (name : Str) :
    dishLine k name =
      '-' :: ' ' :: '*' :: '*' :: 'D' :: 'i' :: 's' :: 'h' :: ' ' ::
        (decimal k ++ ('*' :: '*' :: ':' :: ' ' :: name)) := by
  simp [dishLine]

theorem trim_dishLine (k : Nat) {name : Str} (h : isPlainText name = true) :
    trim (dishLine k name) = dishLine k name := by
  unfold dishLine
  exact trim_append_plain (a := '-') (by simp) (by decide) h

theorem testHeader_dishLine (k : Nat) (name : Str) : testHeader (dishLine k name) = false := by
  rw [dishLine_eq]
  rfl

theorem startsWith_dishLine (k : Nat) (name : Str) :
    startsWith (dishLine k name) dishBullet = true := by
  rw [dishLine_eq]
  rfl

theorem takeWhile_digits (ds rest : Str) (h : ∀ c ∈ ds, isDigit c = true) :
    (ds ++ '*' :: rest).takeWhile isDigit = ds := by
  rw [List.takeWhile_append_of_pos h]
  simp [List.takeWhile_cons, show isDigit '*' = false by decide]

theorem dropWhile_digits (ds rest : Str) (h : ∀ c ∈ ds, isDigit c = true) :
    (ds ++ '*' :: rest).dropWhile isDigit = '*' :: rest := by
  rw [List.dropWhile_append_of_pos h]
  simp [List.dropWhile_cons, show isDigit '*' = false by decide]

theorem matchDishAt_dishLine (k : Nat) {name : Str} (h : isPlainText name = true) :
    matchDishAt (dishLine k name) = some name := by
  obtain ⟨a, b, ha, hb, h1, h2, h3⟩ := isPlainText_iff.1 h
  have htw : name.takeWhile (fun c => !isLineTerminator c) = name := by
    rw [List.takeWhile_eq_self_iff]
    intro c hc
    simp [h3 c hc]
  rw [dishLine_eq]
  unfold matchDishAt
  simp only [startsWith, List.isPrefixOf, List.drop, takeWhile_digits _ _ (decimal_digits k),
    dropWhile_digits _ _ (decimal_digits k), htw]
  simp [decimal_ne_nil k, ne_nil_of_isPlainText h]

theorem matchDish_of_matchDishAt {s m : Str} (h : matchDishAt s = some m) :
    matchDish s = some m := by
  cases s with
  | nil => cases h
  | cons c cs => simp [matchDish, h]

theorem matchDish_dishLine (k : Nat) {name : Str} (h : isPlainText name = true) :
    matchDish (dishLine k name) = some name :=
  matchDish_of_matchDishAt (matchDishAt_dishLine k h)

/-! ### The benefit line and the item line -/

theorem trim_itemLine {x : Str} (h : isPlainText x = true) : trim (itemLine x) = itemLine x := by
  unfold itemLine
  exact trim_append_plain (a := '-') (by simp) (by decide) h

theorem trim_benefitLine {b : Str} (h : isPlainText b = true) :
    trim (benefitLine b) = itemLine b := by
  have h1 : trim (benefitLine b) = trim (itemLine b) := by
    unfold trim benefitLine itemLine
    simp [List.dropWhile_cons, show isWhiteSpace ' ' = true by decide,
      show isWhiteSpace '-' = false by decide]
  rw [h1, trim_itemLine h]

theorem testHeader_itemLine (x : Str) : testHeader (itemLine x) = false := by
  simp [itemLine, testHeader]

theorem startsWith_itemLine (x : Str) : startsWith (itemLine x) bullet = true := by
  simp [itemLine, startsWith, bullet]

theorem startsWith_itemLine_dish (x : Str) :
    startsWith (itemLine x) dishBullet = startsWith x "**Dish".toList := by
  simp [itemLine, startsWith, dishBullet]

theorem replaceBullet_itemLine (x : Str) : replaceBullet (itemLine x) = x := by
  simp [replaceBullet, startsWith_itemLine]
  simp [itemLine]

/-! ## Properties of the heap-free machine -/

theorem Machine.run_append (m : Machine) (a b : List Str) :
    m.run (a ++ b) = (m.run a).run b := by
  simp [Machine.run, List.foldl_append]

theorem Machine.run_cons (m : Machine) (a : Str) (b : List Str) :
    m.run (a :: b) = (m.step a).run b := rfl

theorem Machine.run_nil (m : Machine) : m.run [] = m := rfl

theorem headerLabel_eq_some {raw label : Str} (h : headerLabel raw = some label) :
    testHeader (trim raw) = true ∧ toLowerCase (replaceHeader (trim raw)) = label := by
  unfold headerLabel at h
  split at h
  · rename_i ht
    exact ⟨ht, by simpa using h⟩
  · cases h

theorem headerLabel_eq_none {raw : Str} (h : headerLabel raw = none) :
    testHeader (trim raw) = false := by
  unfold headerLabel at h
  split at h
  · cases h
  · rename_i ht
    simpa using ht

theorem headerSection_eq_some {raw : Str} {k : Sec} (h : headerSection raw = some k) :
    testHeader (trim raw) = true ∧
      sectionOf (some (toLowerCase (replaceHeader (trim raw)))) = k := by
  unfold headerSection at h
  cases hl : headerLabel raw with
  | none => rw [hl] at h; cases h
  | some label =>
    rw [hl] at h
    obtain ⟨h1, h2⟩ := headerLabel_eq_some hl
    refine ⟨h1, ?_⟩
    rw [h2]
    simpa using h

/-- A header line selecting `k` restarts the field of `k` and closes the dish. -/
theorem Machine.step_headerSection (m : Machine) {raw : Str} {k : Sec}
    (h : headerSection raw = some k) :
    m.step raw = { plan := m.plan.restart k, cur := k, dishOpen := false } := by
  obtain ⟨h1, h2⟩ := headerSection_eq_some h
  rw [Machine.header_step m raw h1, h2]

/-- A line that is not a header leaves the current section as it is. -/
theorem Machine.step_cur (m : Machine) (raw : Str) (h : testHeader (trim raw) = false) :
    (m.step raw).cur = m.cur := by
  unfold Machine.step
  simp only [h]
  split
  · rename_i hc; cases hc
  · split
    · split <;> rfl
    · split
      · rfl
      · split <;> rfl

/-- A line that is not a header changes no field but that of the current section. -/
theorem Machine.step_frame (m : Machine) (raw : Str) (h : testHeader (trim raw) = false)
    (k : Sec) (hk : k ≠ m.cur) :
    (m.step raw).plan.dishes k = m.plan.dishes k ∧ (m.step raw).plan.foods k = m.plan.foods k := by
  unfold Machine.step
  simp only [h]
  split
  · rename_i hc; cases hc
  · split
    · rename_i hc
      simp only [Bool.and_eq_true] at hc
      split
      · simp only [MealPlan.dishes_withDishes _ _ _ _ hc.1, MealPlan.foods_withDishes, if_neg hk,
          and_self]
      · exact ⟨rfl, rfl⟩
    · split
      · rename_i hc
        simp only [Bool.and_eq_true] at hc
        simp only [MealPlan.dishes_withDishes _ _ _ _ hc.1.1, MealPlan.foods_withDishes, if_neg hk,
          and_self]
      · split
        · rename_i hc
          simp only [Bool.and_eq_true] at hc
          simp only [MealPlan.foods_withFoods _ _ _ _ hc.1, MealPlan.dishes_withFoods, if_neg hk,
            and_self]
        · exact ⟨rfl, rfl⟩

/-- Lines without a header leave the current section as it is. -/
theorem Machine.run_cur (lines : List Str) (m : Machine)
    (h : ∀ l ∈ lines, testHeader (trim l) = false) : (m.run lines).cur = m.cur := by
  induction lines generalizing m with
  | nil => rfl
  | cons l ls ih =>
    rw [Machine.run_cons, ih _ (fun x hx => h x (List.mem_cons_of_mem _ hx)),
      Machine.step_cur _ _ (h l (List.mem_cons_self _ _))]

/-- Lines without a header change no field but that of the current section. -/
theorem Machine.run_frame (lines : List Str) (m : Machine)
    (h : ∀ l ∈ lines, testHeader (trim l) = false) (k : Sec) (hk : k ≠ m.cur) :
    (m.run lines).plan.dishes k = m.plan.dishes k ∧
      (m.run lines).plan.foods k = m.plan.foods k := by
  induction lines generalizing m with
  | nil => exact ⟨rfl, rfl⟩
  | cons l ls ih =>
    have hl := h l (List.mem_cons_self _ _)
    have h2 := ih (m.step l) (fun x hx => h x (List.mem_cons_of_mem _ hx))
      (by rw [Machine.step_cur _ _ hl]; exact hk)
    have h3 := Machine.step_frame m l hl k hk
    rw [Machine.run_cons]
    exact ⟨h2.1.trans h3.1, h2.2.trans h3.2⟩

/-- With no section open and no dish open, a line that is not a header is ignored. -/
theorem Machine.step_other (m : Machine) (raw : Str) (h : testHeader (trim raw) = false)
    (hc : m.cur = .other) : m.step raw = m := by
  unfold Machine.step
  simp [h, hc, Sec.isMeal, Sec.isFoodList]

theorem Machine.run_other (lines : List Str) (m : Machine)
    (h : ∀ l ∈ lines, testHeader (trim l) = false) (hc : m.cur = .other) :
    m.run lines = m := by
  induction lines with
  | nil => rfl
  | cons l ls ih =>
    rw [Machine.run_cons, Machine.step_other m l (h l (List.mem_cons_self _ _)) hc]
    exact ih (fun x hx => h x (List.mem_cons_of_mem _ hx))

/-- In a meal section with no dish open, a line that neither is a header nor
starts with the dish marker is ignored. -/
theorem Machine.step_closed (m : Machine) (raw : Str) (h : testHeader (trim raw) = false)
    (hd : startsWith (trim raw) dishBullet = false) (hm : m.cur.isMeal = true)
    (ho : m.dishOpen = false) : m.step raw = m := by
  unfold Machine.step
  simp [h, hd, ho, Sec.not_food_of_meal hm]

theorem Machine.run_closed (lines : List Str) (m : Machine)
    (h : ∀ l ∈ lines, testHeader (trim l) = false ∧ startsWith (trim l) dishBullet = false)
    (hm : m.cur.isMeal = true) (ho : m.dishOpen = false) :
    m.run lines = m := by
  induction lines with
  | nil => rfl
  | cons l ls ih =>
    have hl := h l (List.mem_cons_self _ _)
    rw [Machine.run_cons, Machine.step_closed m l hl.1 hl.2 hm ho]
    exact ih (fun x hx => h x (List.mem_cons_of_mem _ hx))

/-- The scanner applied to the document made of the given lines scans those lines. -/
theorem parseMealPlanMarkdown_joinLines (lines : List Str) (hne : lines ≠ [])
    (h : ∀ l ∈ lines, '\n' ∉ l) :
    parseMealPlanMarkdown (joinLines lines) = parseLines lines := by
  unfold parseMealPlanMarkdown joinLines
  exact congrArg parseLines (List.splitOn_intercalate lines _ h hne)

/-! ## The five outcomes of one step -/

/-- One step of the machine is a header step, a dish step, a benefit step, a food
step, or leaves the state as it is. -/
theorem Machine.step_cases (m : Machine) (raw : Str) :
    (testHeader (trim raw) = true ∧
      m.step raw =
        { plan := m.plan.restart (sectionOf (some (toLowerCase (replaceHeader (trim raw)))))
          cur := sectionOf (some (toLowerCase (replaceHeader (trim raw))))
          dishOpen := false }) ∨
    (testHeader (trim raw) = false ∧ m.cur.isMeal = true ∧
      startsWith (trim raw) dishBullet = true ∧
      ∃ name, matchDish (trim raw) = some name ∧
        m.step raw = { m with
          plan := m.plan.withDishes
            (m.plan.dishes m.cur ++ [{ dish := trim name, benefits := [] }]) m.cur
          dishOpen := true }) ∨
    (testHeader (trim raw) = false ∧ m.cur.isMeal = true ∧
      startsWith (trim raw) dishBullet = false ∧ startsWith (trim raw) bullet = true ∧
      m.dishOpen = true ∧
      m.step raw = { m with
        plan := m.plan.withDishes
          (addBenefit (m.plan.dishes m.cur) (trim (replaceBullet (trim raw)))) m.cur }) ∨
    (testHeader (trim raw) = false ∧ m.cur.isFoodList = true ∧
      startsWith (trim raw) bullet = true ∧
      m.step raw = { m with
        plan := m.plan.withFoods
          (m.plan.foods m.cur ++ [trim (replaceBullet (trim raw))]) m.cur }) ∨
    m.step raw = m := by
  cases h : testHeader (trim raw) with
  | true => exact Or.inl ⟨rfl, Machine.header_step m raw h⟩
  | false =>
    right
    cases hm : m.cur.isMeal with
    | true =>
      cases hd : startsWith (trim raw) dishBullet with
      | true =>
        cases hmatch : matchDish (trim raw) with
        | some name =>
          refine Or.inl ⟨rfl, rfl, rfl, name, rfl, ?_⟩
          unfold Machine.step
          simp only [h, hm, hd, hmatch]
          simp
        | none =>
          right; right; right
          unfold Machine.step
          simp only [h, hm, hd, hmatch]
          simp
      | false =>
        right
        cases hb : startsWith (trim raw) bullet with
        | true =>
          cases ho : m.dishOpen with
          | true =>
            refine Or.inl ⟨rfl, rfl, rfl, rfl, rfl, ?_⟩
            unfold Machine.step
            simp only [h, hm, hd, hb, ho]
            simp
          | false =>
            right; right
            unfold Machine.step
            simp [h, hm, hd, hb, ho, Sec.not_food_of_meal hm]
        | false =>
          right; right
          unfold Machine.step
          simp [h, hm, hd, hb]
    | false =>
      right; right
      cases hf : m.cur.isFoodList with
      | true =>
        cases hb : startsWith (trim raw) bullet with
        | true =>
          refine Or.inl ⟨rfl, rfl, rfl, ?_⟩
          unfold Machine.step
          simp only [h, hm, hf, hb]
          simp
        | false =>
          right
          unfold Machine.step
          simp [h, hm, hf, hb]
      | false =>
        right
        unfold Machine.step
        simp [h, hm, hf]

/-! ## Totality -/

/-- C1. For every string the scanner completes without raising and returns a
record with its five sequences; and after any lines whatsoever the next
iteration of the loop succeeds on any line, so no push ever meets an array that
a section header has not created. -/
theorem parseMealPlanMarkdown_total (s : Str) (lines : List Str) (raw : Str) :
    (∃ p : MealPlan, parseMealPlanMarkdown s = .ok p) ∧
    (∃ st st2 : State, scanFrom State.init lines = .ok st ∧ step st raw = .ok st2) := by
  constructor
  · exact ⟨_, parseLines_eq _⟩
  · obtain ⟨st, h, wf, sim⟩ :=
      scanFrom_sim lines State.init Machine.init State.init_wf sim_init
    obtain ⟨st2, h2, -, -⟩ := step_sim st _ raw wf sim
    exact ⟨st, st2, h, h2⟩

/-! ## The first scenario of the specification -/

/-- C3. Concrete scenario 1: a breakfast with the dish Poha and its two benefits,
and one recommended food. -/
theorem scenario_one :
    parseMealPlanMarkdown
      "## Breakfast\n- **Dish 1**: Poha\n  - High in iron\n  - Light on stomach\n## Recommended Foods\n- Turmeric milk".toList
    = .ok { breakfast := [{ dish := "Poha".toList,
                            benefits := ["High in iron".toList, "Light on stomach".toList] }]
            lunch := []
            dinner := []
            recommended := ["Turmeric milk".toList]
            avoid := [] } := by
  rfl

/-! ## Headers and the lines that follow them -/

theorem sectionOf_of_not_mem_vocabulary {label : Str} (h : label ∉ vocabulary) :
    sectionOf (some label) = .other := by
  simp only [vocabulary, List.mem_cons, List.mem_singleton, List.not_mem_nil, or_false,
    not_or] at h
  rcases sectionOf_cases (some label) with ⟨e, -⟩ | ⟨e, -⟩ | ⟨e, -⟩ | ⟨e, -⟩ | ⟨e, -⟩ |
    ⟨-, -, -, -, -, e⟩
  · cases e; exact absurd rfl h.1
  · cases e; exact absurd rfl h.2.1
  · cases e; exact absurd rfl h.2.2.1
  · cases e; exact absurd rfl h.2.2.2.1
  · cases e; exact absurd rfl h.2.2.2.2
  · exact e

theorem headerSection_of_headerLabel {raw label : Str} (h : headerLabel raw = some label) :
    headerSection raw = some (sectionOf (some label)) := by
  simp [headerSection, h]

/-- The machine after the lines `d`, a header selecting `k`, and nothing else. -/
theorem Machine.run_header (d : List Str) {h : Str} {k : Sec} (hh : headerSection h = some k) :
    Machine.init.run (d ++ [h]) =
      { plan := (Machine.init.run d).plan.restart k, cur := k, dishOpen := false } := by
  rw [Machine.run_append, Machine.run_cons, Machine.run_nil, Machine.step_headerSection _ hh]

/-- C5. A benefit with no open dish is dropped: after a meal header, lines that
are neither headers nor start with the dish marker change nothing, and the
header's own meal is the empty sequence. -/
theorem benefit_without_dish_dropped (d B : List Str) (h : Str) (k : Sec)
    (hh : headerSection h = some k) (hk : k.isMeal = true)
    (hB : ∀ l ∈ B, isHeader l = false ∧ startsWith (trim l) dishBullet = false) :
    parseLines (d ++ [h] ++ B) = parseLines (d ++ [h]) ∧
    ∃ p, parseLines (d ++ [h]) = .ok p ∧ p.dishes k = [] := by
  have hrun := Machine.run_header d hh
  constructor
  · rw [parseLines_eq, parseLines_eq, Machine.run_append, hrun,
      Machine.run_closed B _ hB hk rfl]
  · refine ⟨_, parseLines_eq _, ?_⟩
    rw [hrun, MealPlan.dishes_restart, if_pos rfl]

theorem benefit_without_dish_dropped_witness :
    parseLines (["## Breakfast".toList, "- **Dish 1**: Idli".toList] ++ ["## Lunch".toList] ++
        ["  - Rich in fibre".toList, "- Keeps you full".toList]) =
      parseLines (["## Breakfast".toList, "- **Dish 1**: Idli".toList] ++ ["## Lunch".toList]) ∧
    ∃ p, parseLines (["## Breakfast".toList, "- **Dish 1**: Idli".toList] ++
        ["## Lunch".toList]) = .ok p ∧ p.dishes .lunch = [] :=
  benefit_without_dish_dropped _ _ _ .lunch (by decide) (by decide) (by decide)

/-- C6. Section isolation: the lines between a header and the next header
change no field but the one the header selects. -/
theorem section_isolation (d L : List Str) (h : Str) (k : Sec)
    (hh : headerSection h = some k) (hL : ∀ l ∈ L, isHeader l = false) :
    ∃ p q, parseLines (d ++ [h] ++ L) = .ok p ∧ parseLines d = .ok q ∧
      (k ≠ .breakfast → p.breakfast = q.breakfast) ∧
      (k ≠ .lunch → p.lunch = q.lunch) ∧
      (k ≠ .dinner → p.dinner = q.dinner) ∧
      (k ≠ .recommended → p.recommended = q.recommended) ∧
      (k ≠ .avoid → p.avoid = q.avoid) := by
  refine ⟨_, _, parseLines_eq _, parseLines_eq _, ?_⟩
  have hrun := Machine.run_header d hh
  have key : ∀ k2, k2 ≠ k →
      (Machine.init.run (d ++ [h] ++ L)).plan.dishes k2 = (Machine.init.run d).plan.dishes k2 ∧
      (Machine.init.run (d ++ [h] ++ L)).plan.foods k2 = (Machine.init.run d).plan.foods k2 := by
    intro k2 hk2
    rw [Machine.run_append, hrun]
    have := Machine.run_frame L
      { plan := (Machine.init.run d).plan.restart k, cur := k, dishOpen := false } hL k2 hk2
    rw [this.1, this.2, MealPlan.dishes_restart, MealPlan.foods_restart, if_neg hk2, if_neg hk2]
    exact ⟨rfl, rfl⟩
  exact ⟨fun hk => (key .breakfast (Ne.symm hk)).1, fun hk => (key .lunch (Ne.symm hk)).1,
    fun hk => (key .dinner (Ne.symm hk)).1, fun hk => (key .recommended (Ne.symm hk)).2,
    fun hk => (key .avoid (Ne.symm hk)).2⟩

theorem section_isolation_witness :
    ∃ p q, parseLines (["## Breakfast".toList, "- **Dish 1**: Idli".toList] ++
        ["## Lunch".toList] ++ ["- **Dish 1**: Idli".toList, "  - Light".toList]) = .ok p ∧
      parseLines ["## Breakfast".toList, "- **Dish 1**: Idli".toList] = .ok q ∧
      (Sec.lunch ≠ .breakfast → p.breakfast = q.breakfast) ∧
      (Sec.lunch ≠ .lunch → p.lunch = q.lunch) ∧
      (Sec.lunch ≠ .dinner → p.dinner = q.dinner) ∧
      (Sec.lunch ≠ .recommended → p.recommended = q.recommended) ∧
      (Sec.lunch ≠ .avoid → p.avoid = q.avoid) :=
  section_isolation _ _ _ .lunch (by decide) (by decide)

/-- C7. Discard mode: a header whose lower-cased label is outside the vocabulary,
followed by lines without a header, leaves the result as it was. -/
theorem discard_mode (d B : List Str) (h label : Str)
    (hh : headerLabel h = some label) (hl : label ∉ vocabulary)
    (hB : ∀ l ∈ B, isHeader l = false) :
    parseLines (d ++ [h] ++ B) = parseLines d := by
  have hs : headerSection h = some .other := by
    rw [headerSection_of_headerLabel hh, sectionOf_of_not_mem_vocabulary hl]
  rw [parseLines_eq, parseLines_eq, Machine.run_append, Machine.run_header d hs,
    Machine.run_other B _ hB rfl]
  rfl

theorem discard_mode_witness :
    parseLines (["## Breakfast".toList, "- **Dish 1**: Idli".toList] ++ ["## Snacks".toList] ++
      ["- Roasted chana".toList, "- **Dish 1**: Bhel".toList]) =
    parseLines ["## Breakfast".toList, "- **Dish 1**: Idli".toList] :=
  discard_mode _ _ _ "snacks".toList (by decide) (by decide) (by decide)

/-- C8, as stated, fails: a second `## Breakfast` header empties the breakfast
sequence that the lines before it had filled. -/
theorem header_discards_counterexample :
    isHeader "## Breakfast".toList = true ∧
    parseLines ["## Breakfast".toList, "- **Dish 1**: Poha".toList] =
      .ok { breakfast := [{ dish := "Poha".toList, benefits := [] }]
            lunch := [], dinner := [], recommended := [], avoid := [] } ∧
    parseLines (["## Breakfast".toList, "- **Dish 1**: Poha".toList] ++ ["## Breakfast".toList]) =
      .ok { breakfast := [], lunch := [], dinner := [], recommended := [], avoid := [] } := by
  refine ⟨by decide, rfl, rfl⟩

/-- C8, amended. A section header leaves every output sequence it does not
select as it was and restarts the one it selects as the empty sequence; a header
outside the vocabulary selects none, so it changes no sequence. -/
theorem header_frame (d : List Str) (h : Str) (k : Sec) (hh : headerSection h = some k) :
    ∃ p q, parseLines (d ++ [h]) = .ok p ∧ parseLines d = .ok q ∧
      p.breakfast = (if k = .breakfast then [] else q.breakfast) ∧
      p.lunch = (if k = .lunch then [] else q.lunch) ∧
      p.dinner = (if k = .dinner then [] else q.dinner) ∧
      p.recommended = (if k = .recommended then [] else q.recommended) ∧
      p.avoid = (if k = .avoid then [] else q.avoid) := by
  refine ⟨_, _, parseLines_eq _, parseLines_eq _, ?_⟩
  rw [Machine.run_header d hh]
  cases k <;> exact ⟨rfl, rfl, rfl, rfl, rfl⟩

theorem header_frame_witness :
    ∃ p q, parseLines (["## Breakfast".toList, "- **Dish 1**: Poha".toList] ++
        ["## Breakfast".toList]) = .ok p ∧
      parseLines ["## Breakfast".toList, "- **Dish 1**: Poha".toList] = .ok q ∧
      p.breakfast = (if Sec.breakfast = .breakfast then [] else q.breakfast) ∧
      p.lunch = (if Sec.breakfast = .lunch then [] else q.lunch) ∧
      p.dinner = (if Sec.breakfast = .dinner then [] else q.dinner) ∧
      p.recommended = (if Sec.breakfast = .recommended then [] else q.recommended) ∧
      p.avoid = (if Sec.breakfast = .avoid then [] else q.avoid) :=
  header_frame _ _ .breakfast (by decide)

/-- The five headers of the documented convention select the five sections, in
whatever case their labels are written. -/
theorem headerSection_literals :
    headerSection "## Breakfast".toList = some .breakfast ∧
    headerSection "## Lunch".toList = some .lunch ∧
    headerSection "## Dinner".toList = some .dinner ∧
    headerSection "## Recommended Foods".toList = some .recommended ∧
    headerSection "## Foods to Avoid".toList = some .avoid ∧
    headerSection "##  LUNCH \r".toList = some .lunch ∧
    headerSection "## Snacks".toList = some .other ∧
    headerSection "##Lunch".toList = none := by
  decide

/-! ## Re-formatting -/

/-- The scanner only ever looks at the trimmed line. -/
theorem Machine.step_congr (m : Machine) {a b : Str} (h : trim a = trim b) :
    m.step a = m.step b := by
  unfold Machine.step
  simp only [h]

theorem Machine.step_blank (m : Machine) {w : Str} (h : isBlank w = true) : m.step w = m := by
  unfold Machine.step
  rw [trim_of_isBlank h]
  simp [testHeader, startsWith, dishBullet, bullet]

theorem Machine.run_reformatted {xs ys : List Str} (h : Reformatted xs ys) (m : Machine) :
    m.run ys = m.run xs := by
  induction h generalizing m with
  | done => rfl
  | blankLine w xs ys hw _ ih => rw [Machine.run_cons, Machine.step_blank m hw, ih]
  | padded x w xs ys hw _ ih =>
    rw [Machine.run_cons, Machine.run_cons, Machine.step_congr m (trim_append_blank x hw), ih]

/-- The scanner applied to the document made of the given lines scans those
lines, also when there are none: the empty document is one blank line. -/
theorem parseMealPlanMarkdown_joinLines_all (lines : List Str) (h : ∀ l ∈ lines, '\n' ∉ l) :
    parseMealPlanMarkdown (joinLines lines) = parseLines lines := by
  cases lines with
  | nil => rfl
  | cons l ls => exact parseMealPlanMarkdown_joinLines _ (List.cons_ne_nil _ _) h

/-- C9. Invariance under re-formatting: inserting blank lines and appending
whitespace (a carriage return included) to the end of lines leaves the result
unchanged, for the list of lines and for the documents made of them. -/
theorem reformat_invariant (xs ys : List Str) (h : Reformatted xs ys) :
    parseLines ys = parseLines xs ∧
    ((∀ l ∈ xs, '\n' ∉ l) → (∀ l ∈ ys, '\n' ∉ l) →
      parseMealPlanMarkdown (joinLines ys) = parseMealPlanMarkdown (joinLines xs)) := by
  have h1 : parseLines ys = parseLines xs := by
    rw [parseLines_eq, parseLines_eq, Machine.run_reformatted h]
  refine ⟨h1, fun hx hy => ?_⟩
  rw [parseMealPlanMarkdown_joinLines_all _ hx, parseMealPlanMarkdown_joinLines_all _ hy, h1]

theorem reformat_invariant_witness :
    parseLines [" \t".toList, "## Breakfast".toList ++ "\r".toList,
        "- **Dish 1**: Poha".toList ++ "  \r".toList, [], "  - Light".toList ++ []] =
      parseLines ["## Breakfast".toList, "- **Dish 1**: Poha".toList, "  - Light".toList] ∧
    ((∀ l ∈ ["## Breakfast".toList, "- **Dish 1**: Poha".toList, "  - Light".toList],
        '\n' ∉ l) →
      (∀ l ∈ [" \t".toList, "## Breakfast".toList ++ "\r".toList,
        "- **Dish 1**: Poha".toList ++ "  \r".toList, [], "  - Light".toList ++ []], '\n' ∉ l) →
      parseMealPlanMarkdown (joinLines [" \t".toList, "## Breakfast".toList ++ "\r".toList,
        "- **Dish 1**: Poha".toList ++ "  \r".toList, [], "  - Light".toList ++ []]) =
      parseMealPlanMarkdown
        (joinLines ["## Breakfast".toList, "- **Dish 1**: Poha".toList, "  - Light".toList])) :=
  reformat_invariant _ _
    (.blankLine _ _ _ (by decide)
      (.padded _ _ _ _ (by decide)
        (.padded _ _ _ _ (by decide)
          (.blankLine _ _ _ (by decide)
            (.padded _ _ _ _ (by decide) .done)))))

/-! ## Dish names -/

/-- C10 fails on the code: a dish line whose text after the colon is whitespace
up to a carriage return inside the line creates an entry with the empty name. -/
theorem empty_dish_name :
    parseMealPlanMarkdown "## Breakfast\n- **Dish 1**:  \rPoha".toList =
      .ok { breakfast := [{ dish := [], benefits := [] }]
            lunch := [], dinner := [], recommended := [], avoid := [] } := by
  rfl

/-! ## Order preservation -/

theorem inInputOrder_nil {α : Type} (extract : Str → Option α) (lines : List Str) :
    InInputOrder extract lines [] :=
  ⟨[], List.Pairwise.nil, List.Forall₂.nil⟩

theorem inInputOrder_skip {α : Type} {extract : Str → Option α} {lines : List Str}
    {out : List α} (l : Str) (h : InInputOrder extract lines out) :
    InInputOrder extract (l :: lines) out := by
  obtain ⟨idx, hp, hf⟩ := h
  refine ⟨idx.map (· + 1), ?_, ?_⟩
  · exact hp.map _ (fun a b hab => Nat.succ_lt_succ hab)
  · rw [List.forall₂_map_left_iff]
    exact hf.imp (fun i x hx => by simpa using hx)

theorem inInputOrder_take {α : Type} {extract : Str → Option α} {lines : List Str}
    {out : List α} {l : Str} {x : α} (hx : extract l = some x)
    (h : InInputOrder extract lines out) :
    InInputOrder extract (l :: lines) (x :: out) := by
  obtain ⟨idx, hp, hf⟩ := h
  refine ⟨0 :: idx.map (· + 1), ?_, ?_⟩
  · rw [List.pairwise_cons]
    refine ⟨?_, hp.map _ (fun a b hab => Nat.succ_lt_succ hab)⟩
    intro a ha
    obtain ⟨b, -, rfl⟩ := List.mem_map.1 ha
    exact Nat.succ_pos b
  · refine List.Forall₂.cons ⟨l, by simp, hx⟩ ?_
    rw [List.forall₂_map_left_iff]
    exact hf.imp (fun i x hx => by simpa using hx)

/-- A subsequence of what the lines contribute sits at strictly increasing line
indices. -/
theorem inInputOrder_of_sublist {α : Type} (extract : Str → Option α) (lines : List Str)
    (out : List α) (h : List.Sublist out (lines.filterMap extract)) :
    InInputOrder extract lines out := by
  induction lines generalizing out with
  | nil =>
    simp only [List.filterMap_nil, List.sublist_nil] at h
    subst h
    exact inInputOrder_nil _ _
  | cons l ls ih =>
    cases hx : extract l with
    | none =>
      rw [List.filterMap_cons_none hx] at h
      exact inInputOrder_skip l (ih out h)
    | some x =>
      rw [List.filterMap_cons_some hx] at h
      cases h with
      | cons _ h2 => exact inInputOrder_skip l (ih out h2)
      | cons₂ _ h2 => exact inInputOrder_take hx (ih _ h2)

theorem map_dish_addBenefit (l : List DishEntry) (t : Str) :
    (addBenefit l t).map DishEntry.dish = l.map DishEntry.dish := by
  rcases List.eq_nil_or_concat l with rfl | ⟨front, e, rfl⟩
  · rfl
  · simp [addBenefit_append]

theorem ordered_init : Ordered [] Machine.init.plan := by
  constructor
  · intro k; cases k <;> exact List.Sublist.refl _
  · intro k; cases k <;> exact List.Sublist.refl _
  · intro k e he; cases k <;> cases he

theorem ordered_weaken {seen : List Str} {p : MealPlan} (h : Ordered seen p) (l : Str) :
    Ordered (seen ++ [l]) p := by
  constructor
  · intro k
    rw [List.filterMap_append]
    exact (h.foods k).trans (List.sublist_append_left _ _)
  · intro k
    rw [List.filterMap_append]
    exact (h.names k).trans (List.sublist_append_left _ _)
  · intro k e he
    rw [List.filterMap_append]
    exact (h.benefits k e he).trans (List.sublist_append_left _ _)

theorem ordered_step {seen : List Str} {m : Machine} (h : Ordered seen m.plan) (raw : Str) :
    Ordered (seen ++ [raw]) (m.step raw).plan := by
  have hw := ordered_weaken h raw
  rcases Machine.step_cases m raw with ⟨-, e⟩ | ⟨-, hm, hd, name, hmatch, e⟩ |
    ⟨-, hm, -, hb, -, e⟩ | ⟨-, hf, hb, e⟩ | e
  · rw [e]
    constructor
    · intro k
      simp only [MealPlan.foods_restart]
      split
      · exact List.nil_sublist _
      · exact hw.foods k
    · intro k
      simp only [MealPlan.dishes_restart]
      split
      · exact List.nil_sublist _
      · exact hw.names k
    · intro k e2 he
      simp only [MealPlan.dishes_restart] at he
      split at he
      · cases he
      · exact hw.benefits k e2 he
  · rw [e]
    have hn : dishName raw = some (trim name) := by simp [dishName, hd, hmatch]
    constructor
    · intro k
      simp only [MealPlan.foods_withDishes]
      exact hw.foods k
    · intro k
      simp only [MealPlan.dishes_withDishes _ _ _ _ hm]
      split
      · rw [List.filterMap_append, List.map_append]
        refine (h.names m.cur).append ?_
        simp [hn]
      · exact hw.names k
    · intro k e2 he
      simp only [MealPlan.dishes_withDishes _ _ _ _ hm] at he
      split at he
      · rcases List.mem_append.1 he with he | he
        · exact hw.benefits m.cur e2 he
        · simp only [List.mem_singleton] at he
          subst he
          exact List.nil_sublist _
      · exact hw.benefits k e2 he
  · rw [e]
    have hn : bulletText raw = some (trim (replaceBullet (trim raw))) := by
      simp [bulletText, hb]
    constructor
    · intro k
      simp only [MealPlan.foods_withDishes]
      exact hw.foods k
    · intro k
      simp only [MealPlan.dishes_withDishes _ _ _ _ hm]
      split
      · rw [map_dish_addBenefit]
        exact hw.names m.cur
      · exact hw.names k
    · intro k e2 he
      simp only [MealPlan.dishes_withDishes _ _ _ _ hm] at he
      split at he
      · rcases List.eq_nil_or_concat (m.plan.dishes m.cur) with hnil | ⟨front, e0, hc⟩
        · rw [hnil] at he
          cases he
        · rw [List.concat_eq_append] at hc
          rw [hc, addBenefit_append] at he
          rcases List.mem_append.1 he with he | he
          · exact hw.benefits m.cur e2 (by rw [hc]; exact List.mem_append_left _ he)
          · simp only [List.mem_singleton] at he
            subst he
            rw [List.filterMap_append]
            refine (h.benefits m.cur e0 (by rw [hc]; simp)).append ?_
            simp [hn]
      · exact hw.benefits k e2 he
  · rw [e]
    have hn : bulletText raw = some (trim (replaceBullet (trim raw))) := by
      simp [bulletText, hb]
    constructor
    · intro k
      simp only [MealPlan.foods_withFoods _ _ _ _ hf]
      split
      · rw [List.filterMap_append]
        refine (h.foods m.cur).append ?_
        simp [hn]
      · exact hw.foods k
    · intro k
      simp only [MealPlan.dishes_withFoods]
      exact hw.names k
    · intro k e2 he
      simp only [MealPlan.dishes_withFoods] at he
      exact hw.benefits k e2 he
  · rw [e]
    exact hw

theorem ordered_run (lines : List Str) {seen : List Str} {m : Machine}
    (h : Ordered seen m.plan) : Ordered (seen ++ lines) (m.run lines).plan := by
  induction lines generalizing seen m with
  | nil => simpa [Machine.run_nil] using h
  | cons l ls ih =>
    have := ih (ordered_step h l)
    rw [List.append_assoc] at this
    exact this

/-- C4. Order preservation: every output sequence sits at strictly increasing
line indices of the input: the items of `recommended` and of `avoid`, the dish
names of each meal, and the benefits of every single dish. -/
theorem order_preservation (lines : List Str) :
    ∃ p, parseLines lines = .ok p ∧
      InInputOrder bulletText lines p.recommended ∧
      InInputOrder bulletText lines p.avoid ∧
      InInputOrder dishName lines (p.breakfast.map DishEntry.dish) ∧
      InInputOrder dishName lines (p.lunch.map DishEntry.dish) ∧
      InInputOrder dishName lines (p.dinner.map DishEntry.dish) ∧
      ∀ e ∈ p.breakfast ++ p.lunch ++ p.dinner, InInputOrder bulletText lines e.benefits := by
  refine ⟨_, parseLines_eq lines, ?_⟩
  have h : Ordered lines (Machine.init.run lines).plan := by
    simpa using ordered_run lines ordered_init
  refine ⟨inInputOrder_of_sublist _ _ _ (h.foods .recommended),
    inInputOrder_of_sublist _ _ _ (h.foods .avoid),
    inInputOrder_of_sublist _ _ _ (h.names .breakfast),
    inInputOrder_of_sublist _ _ _ (h.names .lunch),
    inInputOrder_of_sublist _ _ _ (h.names .dinner), ?_⟩
  intro e he
  simp only [List.mem_append] at he
  rcases he with (he | he) | he
  · exact inInputOrder_of_sublist _ _ _ (h.benefits .breakfast e he)
  · exact inInputOrder_of_sublist _ _ _ (h.benefits .lunch e he)
  · exact inInputOrder_of_sublist _ _ _ (h.benefits .dinner e he)

/-- Every dish name of the output is the trimmed capture of a dish line of the
input, so it neither starts nor ends with whitespace. -/
theorem dish_names_trimmed (lines : List Str) :
    ∃ p, parseLines lines = .ok p ∧
      ∀ e ∈ p.breakfast ++ p.lunch ++ p.dinner,
        (∃ l ∈ lines, dishName l = some e.dish) ∧
        (∀ a, e.dish.head? = some a → isWhiteSpace a = false) ∧
        (∀ b, e.dish.getLast? = some b → isWhiteSpace b = false) := by
  refine ⟨_, parseLines_eq lines, ?_⟩
  have h : Ordered lines (Machine.init.run lines).plan := by
    simpa using ordered_run lines ordered_init
  have key : ∀ k, ∀ e ∈ (Machine.init.run lines).plan.dishes k,
      ∃ l ∈ lines, dishName l = some e.dish := by
    intro k e he
    have hm : e.dish ∈ lines.filterMap dishName :=
      (h.names k).subset (List.mem_map_of_mem _ he)
    simpa [List.mem_filterMap] using hm
  intro e he
  have hl : ∃ l ∈ lines, dishName l = some e.dish := by
    simp only [List.mem_append] at he
    rcases he with (he | he) | he
    · exact key .breakfast e he
    · exact key .lunch e he
    · exact key .dinner e he
  refine ⟨hl, ?_⟩
  obtain ⟨l, -, hd⟩ := hl
  unfold dishName at hd
  split at hd
  · cases hm : matchDish (trim l) with
    | none => rw [hm] at hd; cases hd
    | some m =>
      rw [hm] at hd
      simp only [Option.map_some', Option.some.injEq] at hd
      rw [← hd]
      exact ⟨head?_trim m, getLast?_trim m⟩
  · cases hd

/-! ## Round trip on the documented convention -/

theorem MealPlan.withDishes_withDishes (p : MealPlan) (l l2 : List DishEntry) (k : Sec) :
    (p.withDishes l k).withDishes l2 k = p.withDishes l2 k := by
  cases k <;> rfl

theorem MealPlan.withFoods_withFoods (p : MealPlan) (l l2 : List Str) (k : Sec) :
    (p.withFoods l k).withFoods l2 k = p.withFoods l2 k := by
  cases k <;> rfl

theorem Machine.step_dishLine (p : MealPlan) (acc : List DishEntry) (k : Sec) (o : Bool)
    (i : Nat) {name : Str} (hk : k.isMeal = true) (h : isPlainText name = true) :
    Machine.step ⟨p.withDishes acc k, k, o⟩ (dishLine i name) =
      ⟨p.withDishes (acc ++ [{ dish := name, benefits := [] }]) k, k, true⟩ := by
  unfold Machine.step
  simp only [trim_dishLine i h, testHeader_dishLine, hk, startsWith_dishLine,
    matchDish_dishLine i h, trim_of_isPlainText h, MealPlan.dishes_withDishes _ _ _ _ hk,
    MealPlan.withDishes_withDishes]
  simp

theorem Machine.step_benefitLine (p : MealPlan) (front : List DishEntry) (e : DishEntry)
    (k : Sec) {b : Str} (hk : k.isMeal = true) (h : isPlainText b = true)
    (hd : startsWith b "**Dish".toList = false) :
    Machine.step ⟨p.withDishes (front ++ [e]) k, k, true⟩ (benefitLine b) =
      ⟨p.withDishes (front ++ [{ e with benefits := e.benefits ++ [b] }]) k, k, true⟩ := by
  unfold Machine.step
  simp only [trim_benefitLine h, testHeader_itemLine, hk, startsWith_itemLine_dish, hd,
    startsWith_itemLine, replaceBullet_itemLine, trim_of_isPlainText h,
    MealPlan.dishes_withDishes _ _ _ _ hk, MealPlan.withDishes_withDishes]
  simp [addBenefit_append]

theorem Machine.step_itemLine (p : MealPlan) (acc : List Str) (k : Sec) (o : Bool)
    {x : Str} (hk : k.isFoodList = true) (h : isPlainText x = true) :
    Machine.step ⟨p.withFoods acc k, k, o⟩ (itemLine x) =
      ⟨p.withFoods (acc ++ [x]) k, k, o⟩ := by
  unfold Machine.step
  simp only [trim_itemLine h, testHeader_itemLine, hk, Sec.not_meal_of_food hk,
    startsWith_itemLine, replaceBullet_itemLine, trim_of_isPlainText h,
    MealPlan.foods_withFoods _ _ _ _ hk, MealPlan.withFoods_withFoods]
  simp

theorem Machine.run_benefitLines (p : MealPlan) (front : List DishEntry) (k : Sec)
    (hk : k.isMeal = true) (bs : List Str) (e : DishEntry)
    (h : ∀ b ∈ bs, isPlainText b = true ∧ startsWith b "**Dish".toList = false) :
    Machine.run ⟨p.withDishes (front ++ [e]) k, k, true⟩ (bs.map benefitLine) =
      ⟨p.withDishes (front ++ [{ e with benefits := e.benefits ++ bs }]) k, k, true⟩ := by
  induction bs generalizing e with
  | nil => simp [Machine.run_nil]
  | cons b bs ih =>
    have hb := h b (List.mem_cons_self _ _)
    rw [List.map_cons, Machine.run_cons, Machine.step_benefitLine p front e k hk hb.1 hb.2,
      ih _ (fun x hx => h x (List.mem_cons_of_mem _ hx))]
    simp

theorem isPlainDish_iff {e : DishEntry} :
    isPlainDish e = true ↔ isPlainText e.dish = true ∧
      ∀ b ∈ e.benefits, isPlainText b = true ∧ startsWith b "**Dish".toList = false := by
  simp [isPlainDish, List.all_eq_true]

theorem Machine.run_renderDishes (p : MealPlan) (k : Sec) (hk : k.isMeal = true)
    (es : List DishEntry) (h : ∀ e ∈ es, isPlainDish e = true) (acc : List DishEntry)
    (o : Bool) (i : Nat) :
    (Machine.run ⟨p.withDishes acc k, k, o⟩ (renderDishes i es)).plan =
      p.withDishes (acc ++ es) k := by
  induction es generalizing acc o i with
  | nil => simp [renderDishes, Machine.run_nil]
  | cons e es ih =>
    obtain ⟨h1, h2⟩ := isPlainDish_iff.1 (h e (List.mem_cons_self _ _))
    rw [renderDishes, Machine.run_cons, Machine.step_dishLine p acc k o i hk h1,
      Machine.run_append, Machine.run_benefitLines p acc k hk e.benefits _ h2,
      ih (fun x hx => h x (List.mem_cons_of_mem _ hx))]
    simp

theorem Machine.run_itemLines (p : MealPlan) (k : Sec) (hk : k.isFoodList = true)
    (xs : List Str) (h : ∀ x ∈ xs, isPlainText x = true) (acc : List Str) (o : Bool) :
    Machine.run ⟨p.withFoods acc k, k, o⟩ (xs.map itemLine) =
      ⟨p.withFoods (acc ++ xs) k, k, o⟩ := by
  induction xs generalizing acc with
  | nil => simp [Machine.run_nil]
  | cons x xs ih =>
    rw [List.map_cons, Machine.run_cons,
      Machine.step_itemLine p acc k o hk (h x (List.mem_cons_self _ _)),
      ih (fun y hy => h y (List.mem_cons_of_mem _ hy))]
    simp

/-- The machine after a meal header and the lines of the meal's dishes. -/
theorem Machine.run_meal (m : Machine) (hline : Str) (k : Sec) (es : List DishEntry)
    (rest : List Str) (hh : headerSection hline = some k) (hk : k.isMeal = true)
    (h : ∀ e ∈ es, isPlainDish e = true) :
    ∃ m2 : Machine, m.run (hline :: (renderDishes 1 es ++ rest)) = m2.run rest ∧
      m2.plan = m.plan.withDishes es k := by
  refine ⟨_, by rw [Machine.run_cons, Machine.run_append], ?_⟩
  rw [Machine.step_headerSection m hh]
  have hr : m.plan.restart k = m.plan.withDishes [] k := by
    cases k <;> first | rfl | cases hk
  rw [hr, Machine.run_renderDishes m.plan k hk es h [] false 1]
  rfl

/-- The machine after a food-list header and the lines of the list's items. -/
theorem Machine.run_foodList (m : Machine) (hline : Str) (k : Sec) (xs : List Str)
    (rest : List Str) (hh : headerSection hline = some k) (hk : k.isFoodList = true)
    (h : ∀ x ∈ xs, isPlainText x = true) :
    ∃ m2 : Machine, m.run (hline :: (xs.map itemLine ++ rest)) = m2.run rest ∧
      m2.plan = m.plan.withFoods xs k := by
  refine ⟨_, by rw [Machine.run_cons, Machine.run_append], ?_⟩
  rw [Machine.step_headerSection m hh]
  have hr : m.plan.restart k = m.plan.withFoods [] k := by
    cases k <;> first | rfl | cases hk
  rw [hr, Machine.run_itemLines m.plan k hk xs h [] false]
  rfl

theorem isPlainPlan_iff {p : MealPlan} :
    isPlainPlan p = true ↔
      (∀ e ∈ p.breakfast, isPlainDish e = true) ∧ (∀ e ∈ p.lunch, isPlainDish e = true) ∧
      (∀ e ∈ p.dinner, isPlainDish e = true) ∧ (∀ x ∈ p.recommended, isPlainText x = true) ∧
      (∀ x ∈ p.avoid, isPlainText x = true) := by
  simp [isPlainPlan, List.all_eq_true, and_assoc]

theorem Machine.run_renderLines (p : MealPlan) (h : isPlainPlan p = true) :
    (Machine.init.run (renderLines p)).plan = p := by
  obtain ⟨hb, hl, hd, hr, ha⟩ := isPlainPlan_iff.1 h
  have e : renderLines p =
      "## Breakfast".toList :: (renderDishes 1 p.breakfast ++
      ("## Lunch".toList :: (renderDishes 1 p.lunch ++
      ("## Dinner".toList :: (renderDishes 1 p.dinner ++
      ("## Recommended Foods".toList :: (p.recommended.map itemLine ++
      ("## Foods to Avoid".toList :: (p.avoid.map itemLine ++ []))))))))) := by
    simp [renderLines]
  obtain ⟨m1, e1, p1⟩ := Machine.run_meal Machine.init "## Breakfast".toList .breakfast p.breakfast
    ("## Lunch".toList :: (renderDishes 1 p.lunch ++
      ("## Dinner".toList :: (renderDishes 1 p.dinner ++
      ("## Recommended Foods".toList :: (p.recommended.map itemLine ++
      ("## Foods to Avoid".toList :: (p.avoid.map itemLine ++ []))))))))
    (by decide) rfl hb
  obtain ⟨m2, e2, p2⟩ := Machine.run_meal m1 "## Lunch".toList .lunch p.lunch
    ("## Dinner".toList :: (renderDishes 1 p.dinner ++
      ("## Recommended Foods".toList :: (p.recommended.map itemLine ++
      ("## Foods to Avoid".toList :: (p.avoid.map itemLine ++ []))))))
    (by decide) rfl hl
  obtain ⟨m3, e3, p3⟩ := Machine.run_meal m2 "## Dinner".toList .dinner p.dinner
    ("## Recommended Foods".toList :: (p.recommended.map itemLine ++
      ("## Foods to Avoid".toList :: (p.avoid.map itemLine ++ []))))
    (by decide) rfl hd
  obtain ⟨m4, e4, p4⟩ := Machine.run_foodList m3 "## Recommended Foods".toList .recommended p.recommended
    ("## Foods to Avoid".toList :: (p.avoid.map itemLine ++ []))
    (by decide) rfl hr
  obtain ⟨m5, e5, p5⟩ := Machine.run_foodList m4 "## Foods to Avoid".toList .avoid p.avoid [] (by decide) rfl ha
  rw [e, e1, e2, e3, e4, e5, Machine.run_nil, p5, p4, p3, p2, p1]
  rfl

theorem no_newline_dishLine (i : Nat) {name : Str} (h : isPlainText name = true) :
    '\n' ∉ dishLine i name := by
  have hd : '\n' ∉ decimal i := fun hm => by
    have := decimal_digits i _ hm
    revert this
    decide
  have hn := no_newline_of_isPlainText h
  simp [dishLine, hd, hn]

theorem no_newline_itemLine {x : Str} (h : isPlainText x = true) : '\n' ∉ itemLine x := by
  have hn := no_newline_of_isPlainText h
  simp [itemLine, hn]

theorem no_newline_benefitLine {b : Str} (h : isPlainText b = true) : '\n' ∉ benefitLine b := by
  have hn := no_newline_of_isPlainText h
  simp [benefitLine, hn]

theorem no_newline_renderDishes (es : List DishEntry) (h : ∀ e ∈ es, isPlainDish e = true)
    (i : Nat) : ∀ l ∈ renderDishes i es, '\n' ∉ l := by
  induction es generalizing i with
  | nil => intro l hl; cases hl
  | cons e es ih =>
    obtain ⟨h1, h2⟩ := isPlainDish_iff.1 (h e (List.mem_cons_self _ _))
    intro l hl
    rw [renderDishes, List.mem_cons, List.mem_append] at hl
    rcases hl with rfl | hl | hl
    · exact no_newline_dishLine i h1
    · obtain ⟨b, hb, rfl⟩ := List.mem_map.1 hl
      exact no_newline_benefitLine (h2 b hb).1
    · exact ih (fun x hx => h x (List.mem_cons_of_mem _ hx)) (i + 1) l hl

theorem no_newline_renderLines (p : MealPlan) (h : isPlainPlan p = true) :
    ∀ l ∈ renderLines p, '\n' ∉ l := by
  obtain ⟨hb, hl, hd, hr, ha⟩ := isPlainPlan_iff.1 h
  intro l hm
  simp only [renderLines, List.mem_append, List.mem_singleton, List.mem_map] at hm
  rcases hm with ((((((((((rfl | hm) | rfl) | hm) | rfl) | hm) | rfl) | ⟨x, hx, rfl⟩) | rfl) |
    ⟨x, hx, rfl⟩))
  · decide
  · exact no_newline_renderDishes _ hb 1 l hm
  · decide
  · exact no_newline_renderDishes _ hl 1 l hm
  · decide
  · exact no_newline_renderDishes _ hd 1 l hm
  · decide
  · exact no_newline_itemLine (hr x hx)
  · decide
  · exact no_newline_itemLine (ha x hx)

/-- C2. Round trip on the documented convention: a plan whose names, benefits
and items are plain texts, and whose benefits do not begin with `**Dish`, is
returned unchanged by the scanner applied to its rendering, for any number of
dishes per meal and any number of benefits per dish. -/
theorem round_trip (p : MealPlan) (h : isPlainPlan p = true) :
    parseMealPlanMarkdown (render p) = .ok p := by
  have hne : renderLines p ≠ [] := by simp [renderLines]
  rw [render, parseMealPlanMarkdown_joinLines _ hne (no_newline_renderLines p h), parseLines_eq,
    Machine.run_renderLines p h]

theorem round_trip_witness :
    parseMealPlanMarkdown (render
      { breakfast := [{ dish := "Poha".toList,
                        benefits := ["High in iron".toList, "Light on stomach".toList] },
                      { dish := "Idli".toList, benefits := [] }]
        lunch := []
        dinner := [{ dish := "Dal".toList, benefits := ["**Rich** in protein".toList] }]
        recommended := ["Turmeric milk".toList, "**Dish 1**: not a dish".toList]
        avoid := ["Fried snacks".toList] }) =
    .ok { breakfast := [{ dish := "Poha".toList,
                          benefits := ["High in iron".toList, "Light on stomach".toList] },
                        { dish := "Idli".toList, benefits := [] }]
          lunch := []
          dinner := [{ dish := "Dal".toList, benefits := ["**Rich** in protein".toList] }]
          recommended := ["Turmeric milk".toList, "**Dish 1**: not a dish".toList]
          avoid := ["Fried snacks".toList] } :=
  round_trip _ (by decide)

/-! ## The parse state reached after a list of lines -/

/-- The state the loop of the source reaches satisfies the invariant and agrees
with the heap-free machine. -/
theorem scanFrom_init_sim {d : List Str} {st : State} (hst : scanFrom State.init d = .ok st) :
    st.WF ∧ Sim st (Machine.init.run d) := by
  obtain ⟨st2, h, wf, sim⟩ := scanFrom_sim d State.init Machine.init State.init_wf sim_init
  rw [hst] at h
  cases h
  exact ⟨wf, sim⟩

theorem startsWith_bullet_of_dishBullet {t : Str} (h : startsWith t dishBullet = true) :
    startsWith t bullet = true := by
  have e : dishBullet = bullet ++ "**Dish".toList := by decide
  simp only [startsWith, List.isPrefixOf_iff_prefix, e] at h ⊢
  exact (List.prefix_append _ _).trans h

theorem testHeader_of_bullet {t : Str} (h : startsWith t bullet = true) :
    testHeader t = false := by
  match t, h with
  | [], h => rfl
  | '-' :: _, _ => rfl
  | c :: cs, h =>
    simp only [startsWith, bullet, String.toList, List.isPrefixOf, Bool.and_eq_true,
      beq_iff_eq] at h
    rw [← h.1]
    rfl

/-- The dish the open reference points to is the last dish of the current section. -/
theorem open_dish_last {st : State} {m : Machine} (wf : st.WF) (sim : Sim st m) {r : Nat}
    (hr : st.currentDish = some r) :
    m.cur.isMeal = true ∧ m.dishOpen = true ∧
      ∃ front, m.plan.dishes m.cur = front ++ [deref st.heap r] := by
  have hm : (sectionOf st.currentSection).isMeal = true := wf.dish_meal (by simp [hr])
  obtain ⟨arr, harr, hlast⟩ := wf.meal_defined hm
  obtain ⟨front, hfront⟩ := hlast r hr
  refine ⟨sim.cur ▸ hm, by rw [← sim.dishOpen, hr]; rfl, front.map (deref st.heap), ?_⟩
  rw [← sim.plan, ← sim.cur, State.result_dishes]
  simp [Sections.mealRefs, harr, hfront]

/-! ## The benefit grammar -/

/-- C11, as stated, fails: with a dish open, a bullet that begins with the dish
marker and does not match the dish pattern is appended to no dish. -/
theorem benefit_grammar_counterexample :
    startsWith (trim "- **Dish of the day".toList) bullet = true ∧
    matchDish (trim "- **Dish of the day".toList) = none ∧
    parseLines ["## Breakfast".toList, "- **Dish 1**: Poha".toList,
        "- **Dish of the day".toList] =
      .ok { breakfast := [{ dish := "Poha".toList, benefits := [] }]
            lunch := [], dinner := [], recommended := [], avoid := [] } := by
  refine ⟨by decide, by decide, rfl⟩

/-- C11, amended. While the current section is a meal and a dish is open, a
bullet line that does not start with the dish marker has its trimmed text
appended to the benefits of the open dish, the last dish of the section; a bullet
that starts with the dish marker and does not match the dish pattern is appended
to no dish and changes nothing. -/
theorem benefit_grammar (d : List Str) (l : Str) (st : State) (r : Nat)
    (hst : scanFrom State.init d = .ok st) (hm : isMeal st.currentSection = true)
    (hr : st.currentDish = some r) (hb : startsWith (trim l) bullet = true) :
    (startsWith (trim l) dishBullet = false →
      ∃ p front, parseLines d = .ok p ∧
        p.dishes (sectionOf st.currentSection) = front ++ [deref st.heap r] ∧
        parseLines (d ++ [l]) = .ok (p.withDishes
          (front ++ [{ deref st.heap r with
            benefits := (deref st.heap r).benefits ++ [trim (replaceBullet (trim l))] }])
          (sectionOf st.currentSection))) ∧
    (startsWith (trim l) dishBullet = true → matchDish (trim l) = none →
      parseLines (d ++ [l]) = parseLines d) := by
  obtain ⟨wf, sim⟩ := scanFrom_init_sim hst
  obtain ⟨-, ho, front, hfront⟩ := open_dish_last wf sim hr
  have hmc : (Machine.init.run d).cur.isMeal = true := by
    rw [← sim.cur, ← isMeal_eq]
    exact hm
  have hh := testHeader_of_bullet hb
  constructor
  · intro hnd
    refine ⟨_, front, parseLines_eq d, by rw [sim.cur]; exact hfront, ?_⟩
    rw [parseLines_eq, Machine.run_append, Machine.run_cons, Machine.run_nil]
    have hstep : (Machine.init.run d).step l = { Machine.init.run d with
        plan := (Machine.init.run d).plan.withDishes
          (addBenefit ((Machine.init.run d).plan.dishes (Machine.init.run d).cur)
            (trim (replaceBullet (trim l)))) (Machine.init.run d).cur } := by
      unfold Machine.step
      simp only [hh, hmc, hnd, hb, ho]
      simp
    rw [hstep, hfront, addBenefit_append, sim.cur]
  · intro hd hmatch
    rw [parseLines_eq, parseLines_eq, Machine.run_append, Machine.run_cons, Machine.run_nil]
    have hstep : (Machine.init.run d).step l = Machine.init.run d := by
      unfold Machine.step
      simp only [hh, hmc, hd, hmatch]
      simp
    rw [hstep]

theorem benefit_grammar_witness :
    (startsWith (trim "  - Light on stomach".toList) dishBullet = false →
      ∃ p front, parseLines ["## Breakfast".toList, "- **Dish 1**: Poha".toList] = .ok p ∧
        p.dishes (sectionOf (some kBreakfast)) =
          front ++ [deref [{ dish := "Poha".toList, benefits := [] }] 0] ∧
        parseLines (["## Breakfast".toList, "- **Dish 1**: Poha".toList] ++
            ["  - Light on stomach".toList]) = .ok (p.withDishes
          (front ++ [{ deref [{ dish := "Poha".toList, benefits := [] }] 0 with
            benefits := (deref [{ dish := "Poha".toList, benefits := [] }] 0).benefits ++
              [trim (replaceBullet (trim "  - Light on stomach".toList))] }])
          (sectionOf (some kBreakfast)))) ∧
    (startsWith (trim "  - Light on stomach".toList) dishBullet = true →
      matchDish (trim "  - Light on stomach".toList) = none →
      parseLines (["## Breakfast".toList, "- **Dish 1**: Poha".toList] ++
          ["  - Light on stomach".toList]) =
        parseLines ["## Breakfast".toList, "- **Dish 1**: Poha".toList]) :=
  benefit_grammar ["## Breakfast".toList, "- **Dish 1**: Poha".toList]
    "  - Light on stomach".toList
    { heap := [{ dish := "Poha".toList, benefits := [] }]
      sections := ⟨some [0], none, none, none, none⟩
      currentSection := some kBreakfast
      currentDish := some 0 }
    0 rfl (by decide) rfl (by decide)

/-! ## Malformed dish lines -/

/-- C16. Malformed dish line: in a meal section a line that starts with the dish
marker and contains no match of the dish pattern leaves the parse state as it
is, so the result is the same as without that line. -/
theorem malformed_dish_line (d r : List Str) (l : Str) (st : State)
    (hst : scanFrom State.init d = .ok st) (hm : isMeal st.currentSection = true)
    (hd : startsWith (trim l) dishBullet = true) (hmatch : matchDish (trim l) = none) :
    step st l = .ok st ∧ parseLines (d ++ [l] ++ r) = parseLines (d ++ r) := by
  obtain ⟨wf, sim⟩ := scanFrom_init_sim hst
  have hh := testHeader_of_bullet (startsWith_bullet_of_dishBullet hd)
  have hms : (sectionOf st.currentSection).isMeal = true := by rw [← isMeal_eq]; exact hm
  refine ⟨step_dish_none st l hh hms hd hmatch, ?_⟩
  rw [parseLines_eq, parseLines_eq, Machine.run_append, Machine.run_append, Machine.run_append,
    Machine.run_cons, Machine.run_nil]
  have hstep : (Machine.init.run d).step l = Machine.init.run d := by
    unfold Machine.step
    simp only [hh, ← sim.cur, hms, hd, hmatch]
    simp
  rw [hstep]

theorem malformed_dish_line_witness :
    step { heap := [{ dish := "Poha".toList, benefits := [] }]
           sections := ⟨some [0], none, none, none, none⟩
           currentSection := some kBreakfast
           currentDish := some 0 } "- **Dish two**: Upma".toList =
      .ok { heap := [{ dish := "Poha".toList, benefits := [] }]
            sections := ⟨some [0], none, none, none, none⟩
            currentSection := some kBreakfast
            currentDish := some 0 } ∧
    parseLines (["## Breakfast".toList, "- **Dish 1**: Poha".toList] ++
        ["- **Dish two**: Upma".toList] ++ ["  - Light".toList]) =
      parseLines (["## Breakfast".toList, "- **Dish 1**: Poha".toList] ++
        ["  - Light".toList]) :=
  malformed_dish_line ["## Breakfast".toList, "- **Dish 1**: Poha".toList]
    ["  - Light".toList] "- **Dish two**: Upma".toList _ rfl (by decide) (by decide)
    (by decide)

/-! ## Documents without a recognised header -/

theorem Machine.step_unrecognized (raw : Str) (h : isRecognizedHeader raw = false) :
    Machine.init.step raw = Machine.init := by
  cases ht : testHeader (trim raw) with
  | false => exact Machine.step_other _ _ ht rfl
  | true =>
    have hl : headerLabel raw = some (toLowerCase (replaceHeader (trim raw))) := by
      simp [headerLabel, ht]
    have hv : toLowerCase (replaceHeader (trim raw)) ∉ vocabulary := by
      simpa [isRecognizedHeader, hl] using h
    rw [Machine.header_step _ _ ht, sectionOf_of_not_mem_vocabulary hv]
    rfl

theorem Machine.run_unrecognized (lines : List Str)
    (h : ∀ l ∈ lines, isRecognizedHeader l = false) :
    Machine.init.run lines = Machine.init := by
  induction lines with
  | nil => rfl
  | cons l ls ih =>
    rw [Machine.run_cons, Machine.step_unrecognized l (h l (List.mem_cons_self _ _))]
    exact ih (fun x hx => h x (List.mem_cons_of_mem _ hx))

/-- C12. A document none of whose lines is a recognised section header, the
empty string among them, yields five empty sequences. -/
theorem no_recognized_header (s : Str)
    (h : ∀ l ∈ s.splitOn '\n', isRecognizedHeader l = false) :
    parseMealPlanMarkdown s = .ok MealPlan.empty := by
  unfold parseMealPlanMarkdown
  rw [parseLines_eq, Machine.run_unrecognized _ h]
  rfl

theorem no_recognized_header_witness :
    parseMealPlanMarkdown [] = .ok MealPlan.empty ∧
    parseMealPlanMarkdown "Eat well.\n## Snacks\n- Roasted chana\n- **Dish 1**: Bhel".toList =
      .ok MealPlan.empty :=
  ⟨no_recognized_header [] (by decide), no_recognized_header _ (by decide)⟩

/-! ## The size of the output -/

theorem mealCount_append (a b : List DishEntry) :
    mealCount (a ++ b) = mealCount a + mealCount b := by
  simp [mealCount]
  omega

theorem mealCount_addBenefit (l : List DishEntry) (t : Str) :
    mealCount (addBenefit l t) ≤ mealCount l + 1 := by
  rcases List.eq_nil_or_concat l with rfl | ⟨front, e, rfl⟩
  · simp [addBenefit, mealCount]
  · rw [List.concat_eq_append, addBenefit_append, mealCount_append, mealCount_append]
    simp only [mealCount, List.length_singleton, List.map_cons, List.map_nil, List.sum_cons,
      List.sum_nil, List.length_append]
    omega

theorem entryCount_restart (p : MealPlan) (k : Sec) :
    entryCount (p.restart k) ≤ entryCount p := by
  cases k <;> simp [entryCount, MealPlan.restart, mealCount]

theorem entryCount_withDishes (p : MealPlan) (l : List DishEntry) (k : Sec)
    (hk : k.isMeal = true) :
    entryCount (p.withDishes l k) + mealCount (p.dishes k) = entryCount p + mealCount l := by
  cases k <;>
    first
    | (simp only [entryCount, MealPlan.withDishes, MealPlan.dishes]; omega)
    | cases hk

theorem entryCount_withFoods (p : MealPlan) (l : List Str) (k : Sec)
    (hk : k.isFoodList = true) :
    entryCount (p.withFoods l k) + (p.foods k).length = entryCount p + l.length := by
  cases k <;>
    first
    | (simp only [entryCount, MealPlan.withFoods, MealPlan.foods]; omega)
    | cases hk

/-- One line adds at most one entry, and only if it starts with the bullet. -/
theorem Machine.entryCount_step (m : Machine) (raw : Str) :
    entryCount (m.step raw).plan ≤ entryCount m.plan + bulletCount [raw] := by
  rcases Machine.step_cases m raw with ⟨-, e⟩ | ⟨-, hm, hd, name, -, e⟩ |
    ⟨-, hm, -, hb, -, e⟩ | ⟨-, hf, hb, e⟩ | e
  · rw [e]
    exact Nat.le_add_right_of_le (entryCount_restart _ _)
  · rw [e]
    have hb := startsWith_bullet_of_dishBullet hd
    have h1 := entryCount_withDishes m.plan
      (m.plan.dishes m.cur ++ [{ dish := trim name, benefits := [] }]) m.cur hm
    rw [mealCount_append] at h1
    simp only [bulletCount, List.countP_cons, List.countP_nil, hb, if_true]
    simp only [mealCount, List.length_singleton, List.map_cons, List.map_nil, List.sum_cons,
      List.sum_nil, List.length_nil] at h1
    omega
  · rw [e]
    have h1 := entryCount_withDishes m.plan
      (addBenefit (m.plan.dishes m.cur) (trim (replaceBullet (trim raw)))) m.cur hm
    have h2 := mealCount_addBenefit (m.plan.dishes m.cur) (trim (replaceBullet (trim raw)))
    simp only [bulletCount, List.countP_cons, List.countP_nil, hb, if_true]
    omega
  · rw [e]
    have h1 := entryCount_withFoods m.plan
      (m.plan.foods m.cur ++ [trim (replaceBullet (trim raw))]) m.cur hf
    simp only [bulletCount, List.countP_cons, List.countP_nil, hb, if_true]
    simp only [List.length_append, List.length_singleton] at h1
    omega
  · rw [e]
    exact Nat.le_add_right _ _

theorem bulletCount_cons (l : Str) (ls : List Str) :
    bulletCount (l :: ls) = bulletCount [l] + bulletCount ls := by
  simp only [bulletCount, List.countP_cons, List.countP_nil]
  omega

theorem Machine.entryCount_run (lines : List Str) (m : Machine) :
    entryCount (m.run lines).plan ≤ entryCount m.plan + bulletCount lines := by
  induction lines generalizing m with
  | nil => exact Nat.le_add_right _ _
  | cons l ls ih =>
    have h1 := ih (m.step l)
    have h2 := Machine.entryCount_step m l
    rw [Machine.run_cons, bulletCount_cons]
    omega

/-- C14. The output is bounded by the input: the number of extracted entries is
at most the number of lines that start with the bullet after trimming, which is
at most the number of lines. -/
theorem output_size_bounded (s : Str) :
    ∃ p, parseMealPlanMarkdown s = .ok p ∧
      entryCount p ≤ bulletCount (s.splitOn '\n') ∧
      bulletCount (s.splitOn '\n') ≤ (s.splitOn '\n').length := by
  refine ⟨_, parseLines_eq _, ?_, List.countP_le_length _⟩
  have := Machine.entryCount_run (s.splitOn '\n') Machine.init
  simpa [entryCount, mealCount, Machine.init] using this

/-! ## A repeated header -/

theorem AgreeOn.step_agree {k : Sec} {m1 m2 : Machine} (h : AgreeOn k m1 m2) (raw : Str) :
    AgreeOn k (m1.step raw) (m2.step raw) := by
  obtain ⟨p1, c, o⟩ := m1
  obtain ⟨p2, c2, o2⟩ := m2
  obtain ⟨hc, ho, hd, hf⟩ := h
  simp only at hc ho hd hf
  subst hc ho
  cases ht : testHeader (trim raw) with
  | true =>
    rw [Machine.header_step _ _ ht, Machine.header_step _ _ ht]
    refine ⟨rfl, rfl, ?_, ?_⟩
    · simp only [MealPlan.dishes_restart, hd]
    · simp only [MealPlan.foods_restart, hf]
  | false =>
    cases hm : c.isMeal with
    | true =>
      have hfl := Sec.not_food_of_meal hm
      cases hdb : startsWith (trim raw) dishBullet with
      | true =>
        cases hmatch : matchDish (trim raw) with
        | some name =>
          unfold Machine.step
          simp only [ht, hm, hdb, hmatch]
          refine ⟨rfl, rfl, ?_, ?_⟩
          · simp only [Bool.false_eq_true, if_false, Bool.and_self, if_true,
              MealPlan.dishes_withDishes _ _ _ _ hm]
            split
            · rename_i hk; subst hk; rw [hd]
            · exact hd
          · simp only [Bool.false_eq_true, if_false, Bool.and_self, if_true,
              MealPlan.foods_withDishes]
            exact hf
        | none =>
          unfold Machine.step
          simp only [ht, hm, hdb, hmatch]
          exact ⟨rfl, rfl, by simpa using hd, by simpa using hf⟩
      | false =>
        cases hb : startsWith (trim raw) bullet with
        | true =>
          cases ho : o with
          | true =>
            unfold Machine.step
            simp only [ht, hm, hdb, hb]
            refine ⟨rfl, rfl, ?_, ?_⟩
            · simp only [Bool.false_eq_true, if_false, Bool.and_false, Bool.and_self, if_true,
                MealPlan.dishes_withDishes _ _ _ _ hm]
              split
              · rename_i hk; subst hk; rw [hd]
              · exact hd
            · simp only [Bool.false_eq_true, if_false, Bool.and_false, Bool.and_self, if_true,
                MealPlan.foods_withDishes]
              exact hf
          | false =>
            unfold Machine.step
            simp only [ht, hm, hdb, hb, hfl]
            exact ⟨rfl, rfl, by simpa using hd, by simpa using hf⟩
        | false =>
          unfold Machine.step
          simp only [ht, hm, hdb, hb, hfl]
          exact ⟨rfl, rfl, by simpa using hd, by simpa using hf⟩
    | false =>
      cases hfl : c.isFoodList with
      | true =>
        cases hb : startsWith (trim raw) bullet with
        | true =>
          unfold Machine.step
          simp only [ht, hm, hfl, hb]
          refine ⟨rfl, rfl, ?_, ?_⟩
          · simp only [Bool.false_eq_true, if_false, Bool.false_and, Bool.and_self, if_true,
              MealPlan.dishes_withFoods]
            exact hd
          · simp only [Bool.false_eq_true, if_false, Bool.false_and, Bool.and_self, if_true,
              MealPlan.foods_withFoods _ _ _ _ hfl]
            split
            · rename_i hk; subst hk; rw [hf]
            · exact hf
        | false =>
          unfold Machine.step
          simp only [ht, hm, hfl, hb]
          exact ⟨rfl, rfl, by simpa using hd, by simpa using hf⟩
      | false =>
        unfold Machine.step
        simp only [ht, hm, hfl]
        exact ⟨rfl, rfl, by simpa using hd, by simpa using hf⟩

theorem AgreeOn.run_agree {k : Sec} (lines : List Str) {m1 m2 : Machine}
    (h : AgreeOn k m1 m2) : AgreeOn k (m1.run lines) (m2.run lines) := by
  induction lines generalizing m1 m2 with
  | nil => exact h
  | cons l ls ih => exact ih (h.step_agree l)

/-- C17. A repeated header keeps only the last occurrence: what follows a header
fills the field the header selects in the same way, whatever came before the
header. -/
theorem repeated_header (d L : List Str) (h : Str) (k : Sec)
    (hh : headerSection h = some k) :
    ∃ p q, parseLines (d ++ [h] ++ L) = .ok p ∧ parseLines ([h] ++ L) = .ok q ∧
      (k = .breakfast → p.breakfast = q.breakfast) ∧
      (k = .lunch → p.lunch = q.lunch) ∧
      (k = .dinner → p.dinner = q.dinner) ∧
      (k = .recommended → p.recommended = q.recommended) ∧
      (k = .avoid → p.avoid = q.avoid) := by
  refine ⟨_, _, parseLines_eq _, parseLines_eq _, ?_⟩
  have h0 : AgreeOn k (Machine.init.run (d ++ [h])) (Machine.init.run ([] ++ [h])) := by
    rw [Machine.run_header d hh, Machine.run_header [] hh]
    refine ⟨rfl, rfl, ?_, ?_⟩
    · simp only [MealPlan.dishes_restart, if_true]
    · simp only [MealPlan.foods_restart, if_true]
  have h1 := h0.run_agree L
  rw [← Machine.run_append, ← Machine.run_append, List.nil_append] at h1
  refine ⟨?_, ?_, ?_, ?_, ?_⟩ <;> intro hk <;> subst hk
  · exact h1.dishes
  · exact h1.dishes
  · exact h1.dishes
  · exact h1.foods
  · exact h1.foods

theorem repeated_header_witness :
    ∃ p q, parseLines (["## Lunch".toList, "- **Dish 1**: Dal".toList] ++ ["## Lunch".toList] ++
        ["- **Dish 1**: Roti".toList, "  - Whole grain".toList]) = .ok p ∧
      parseLines (["## Lunch".toList] ++
        ["- **Dish 1**: Roti".toList, "  - Whole grain".toList]) = .ok q ∧
      (Sec.lunch = .breakfast → p.breakfast = q.breakfast) ∧
      (Sec.lunch = .lunch → p.lunch = q.lunch) ∧
      (Sec.lunch = .dinner → p.dinner = q.dinner) ∧
      (Sec.lunch = .recommended → p.recommended = q.recommended) ∧
      (Sec.lunch = .avoid → p.avoid = q.avoid) :=
  repeated_header _ _ _ .lunch (by decide)

/-! ## The texts of bullets -/

theorem mem_dropWhile_of_neg {p : Char → Bool} {c : Char} {s : Str} (hc : c ∈ s)
    (hp : p c = false) : c ∈ s.dropWhile p := by
  induction s with
  | nil => cases hc
  | cons a s ih =>
    rw [List.dropWhile_cons]
    split
    · rename_i ha
      rcases List.mem_cons.1 hc with rfl | hc
      · rw [hp] at ha; cases ha
      · exact ih hc
    · exact hc

/-- A character that is not whitespace survives trimming. -/
theorem mem_trim {c : Char} {s : Str} (hc : c ∈ s) (hw : isWhiteSpace c = false) :
    c ∈ trim s := by
  unfold trim
  rw [List.mem_reverse]
  apply mem_dropWhile_of_neg _ hw
  rw [List.mem_reverse]
  exact mem_dropWhile_of_neg hc hw

theorem isTrimmed_trim {s : Str} (h : trim s ≠ []) : isTrimmed (trim s) = true := by
  unfold isTrimmed
  cases hh : (trim s).head? with
  | none => simp [List.head?_eq_none_iff] at hh; exact absurd hh h
  | some a =>
    cases hl : (trim s).getLast? with
    | none => simp [List.getLast?_eq_none_iff] at hl; exact absurd hl h
    | some b => simp [head?_trim s a hh, getLast?_trim s b hl]

/-- The text of a bullet is never empty and is trimmed. -/
theorem isTrimmed_of_bulletText {raw x : Str} (h : bulletText raw = some x) :
    isTrimmed x = true := by
  unfold bulletText at h
  split at h
  · rename_i hb
    simp only [Option.some.injEq] at h
    subst h
    apply isTrimmed_trim
    have hrep : replaceBullet (trim raw) = (trim raw).drop 2 := by simp [replaceBullet, hb]
    rw [hrep]
    have hne : trim raw ≠ [] := by
      intro e
      rw [e] at hb
      revert hb
      decide
    obtain ⟨b, hlast⟩ : ∃ b, (trim raw).getLast? = some b :=
      ⟨_, List.getLast?_eq_getLast _ hne⟩
    have hwb := getLast?_trim raw b hlast
    have hmem : b ∈ (trim raw).drop 2 := by
      generalize trim raw = t at hb hlast
      match t, hb, hlast with
      | [_], hb, _ => revert hb; simp [startsWith, bullet]
      | [_, c], hb, hlast =>
        simp only [startsWith, bullet, String.toList, List.isPrefixOf, Bool.and_eq_true,
          beq_iff_eq] at hb
        simp only [List.getLast?_cons_cons, List.getLast?_singleton, Option.some.injEq] at hlast
        rw [← hlast, ← hb.2.1] at hwb
        exact absurd hwb (by decide)
      | _ :: _ :: c :: cs, _, hlast =>
        simp only [List.getLast?_cons_cons] at hlast
        simp only [List.drop_succ_cons, List.drop_zero]
        exact List.mem_of_getLast?_eq_some hlast
    intro e
    have := mem_trim hmem hwb
    rw [e] at this
    cases this
  · cases h

theorem Machine.step_dash (m : Machine) {l : Str} (h : trim l = ['-']) : m.step l = m := by
  unfold Machine.step
  rw [h]
  simp [testHeader, startsWith, dishBullet, bullet]

/-- C18. Every string in `recommended`, in `avoid` and in the benefits of a dish
is non-empty and neither starts nor ends with whitespace; a bullet without text,
a line that trims to `-`, produces no entry. -/
theorem bullet_texts_trimmed (lines d r : List Str) (l : Str) (hl : trim l = ['-']) :
    (∃ p, parseLines lines = .ok p ∧
      (∀ x ∈ p.recommended ++ p.avoid, isTrimmed x = true) ∧
      (∀ e ∈ p.breakfast ++ p.lunch ++ p.dinner, ∀ b ∈ e.benefits, isTrimmed b = true)) ∧
    parseLines (d ++ [l] ++ r) = parseLines (d ++ r) := by
  constructor
  · refine ⟨_, parseLines_eq lines, ?_, ?_⟩
    · have h : Ordered lines (Machine.init.run lines).plan := by
        simpa using ordered_run lines ordered_init
      have key : ∀ k, ∀ x ∈ (Machine.init.run lines).plan.foods k, isTrimmed x = true := by
        intro k x hx
        have hm : x ∈ lines.filterMap bulletText := (h.foods k).subset hx
        obtain ⟨raw, -, hraw⟩ := List.mem_filterMap.1 hm
        exact isTrimmed_of_bulletText hraw
      intro x hx
      rcases List.mem_append.1 hx with hx | hx
      · exact key .recommended x hx
      · exact key .avoid x hx
    · have h : Ordered lines (Machine.init.run lines).plan := by
        simpa using ordered_run lines ordered_init
      have key : ∀ k, ∀ e ∈ (Machine.init.run lines).plan.dishes k, ∀ b ∈ e.benefits,
          isTrimmed b = true := by
        intro k e he b hb
        have hm : b ∈ lines.filterMap bulletText := (h.benefits k e he).subset hb
        obtain ⟨raw, -, hraw⟩ := List.mem_filterMap.1 hm
        exact isTrimmed_of_bulletText hraw
      intro e he
      simp only [List.mem_append] at he
      rcases he with (he | he) | he
      · exact key .breakfast e he
      · exact key .lunch e he
      · exact key .dinner e he
  · rw [parseLines_eq, parseLines_eq, Machine.run_append, Machine.run_append,
      Machine.run_append, Machine.run_cons, Machine.run_nil, Machine.step_dash _ hl]

theorem bullet_texts_trimmed_witness :
    (∃ p, parseLines ["## Dinner".toList, "- **Dish 1**: Khichdi".toList,
        "-   Easy to digest \t".toList, "-".toList, "## Foods to Avoid".toList,
        " - \tSugar ".toList] = .ok p ∧
      (∀ x ∈ p.recommended ++ p.avoid, isTrimmed x = true) ∧
      (∀ e ∈ p.breakfast ++ p.lunch ++ p.dinner, ∀ b ∈ e.benefits, isTrimmed b = true)) ∧
    parseLines (["## Foods to Avoid".toList] ++ [" - \t".toList] ++ ["- Sugar".toList]) =
      parseLines (["## Foods to Avoid".toList] ++ ["- Sugar".toList]) :=
  bullet_texts_trimmed _ _ _ " - \t".toList (by decide)

/-! ## The invariant of the open dish -/

theorem OpenDishAt.skip_line {seen : List Str} {ds : List DishEntry} (h : OpenDishAt seen ds)
    {raw : Str} (hh : isHeader raw = false) (hd : dishName raw = none)
    (hb : benefitText raw = none) : OpenDishAt (seen ++ [raw]) ds := by
  obtain ⟨front, e, pre, l, post, h1, h2, h3, h4, h5, h6⟩ := h
  refine ⟨front, e, pre, l, post ++ [raw], h1, by simp [h2], ?_, h4, ?_, ?_⟩
  · intro x hx
    rw [← List.cons_append, List.mem_append, List.mem_singleton] at hx
    rcases hx with hx | rfl
    · exact h3 x hx
    · exact hh
  · intro x hx
    rw [List.mem_append, List.mem_singleton] at hx
    rcases hx with hx | rfl
    · exact h5 x hx
    · exact hd
  · rw [List.filterMap_append, h6]
    simp [hb]

theorem OpenDishAt.benefit_line {seen : List Str} {ds : List DishEntry}
    (h : OpenDishAt seen ds) {raw t : Str} (hh : isHeader raw = false)
    (hd : dishName raw = none) (hb : benefitText raw = some t) :
    OpenDishAt (seen ++ [raw]) (addBenefit ds t) := by
  obtain ⟨front, e, pre, l, post, h1, h2, h3, h4, h5, h6⟩ := h
  refine ⟨front, { e with benefits := e.benefits ++ [t] }, pre, l, post ++ [raw], ?_,
    by simp [h2], ?_, h4, ?_, ?_⟩
  · rw [h1, addBenefit_append]
  · intro x hx
    rw [← List.cons_append, List.mem_append, List.mem_singleton] at hx
    rcases hx with hx | rfl
    · exact h3 x hx
    · exact hh
  · intro x hx
    rw [List.mem_append, List.mem_singleton] at hx
    rcases hx with hx | rfl
    · exact h5 x hx
    · exact hd
  · rw [List.filterMap_append, h6]
    simp [hb]

theorem OpenDishAt.dish_line (seen : List Str) (ds : List DishEntry) {raw n : Str}
    (hh : isHeader raw = false) (hd : dishName raw = some n) :
    OpenDishAt (seen ++ [raw]) (ds ++ [{ dish := n, benefits := [] }]) := by
  refine ⟨ds, _, seen, raw, [], rfl, rfl, ?_, hd, ?_, rfl⟩
  · intro x hx
    simp only [List.mem_singleton] at hx
    subst hx
    exact hh
  · intro x hx
    cases hx

theorem OpenDish.init_open : OpenDish [] Machine.init := by
  intro h
  cases h

/-- One step of the machine keeps the invariant of the open dish. -/
theorem OpenDish.step_open {seen : List Str} {m : Machine} (h : OpenDish seen m) (raw : Str) :
    OpenDish (seen ++ [raw]) (m.step raw) := by
  cases ht : testHeader (trim raw) with
  | true =>
    rw [Machine.header_step _ _ ht]
    intro ho
    cases ho
  | false =>
    have hh : isHeader raw = false := ht
    cases hm : m.cur.isMeal with
    | false =>
      have hcur := Machine.step_cur m raw ht
      have hopen : (m.step raw).dishOpen = m.dishOpen := by
        unfold Machine.step
        simp only [ht, hm]
        split
        · rename_i hc; cases hc
        · split
          · rename_i hc; simp at hc
          · split
            · rename_i hc; simp at hc
            · split <;> rfl
      intro ho
      rw [hopen] at ho
      have := (h ho).1
      rw [hm] at this
      cases this
    | true =>
      have hfl := Sec.not_food_of_meal hm
      cases hdb : startsWith (trim raw) dishBullet with
      | true =>
        have hbt : benefitText raw = none := by simp [benefitText, hdb]
        cases hmatch : matchDish (trim raw) with
        | some name =>
          have hdn : dishName raw = some (trim name) := by simp [dishName, hdb, hmatch]
          have hstep : m.step raw = { m with
              plan := m.plan.withDishes
                (m.plan.dishes m.cur ++ [{ dish := trim name, benefits := [] }]) m.cur
              dishOpen := true } := by
            unfold Machine.step
            simp only [ht, hm, hdb, hmatch]
            simp
          rw [hstep]
          intro _
          refine ⟨hm, ?_⟩
          simp only [MealPlan.dishes_withDishes _ _ _ _ hm, if_true]
          exact OpenDishAt.dish_line seen _ hh hdn
        | none =>
          have hdn : dishName raw = none := by simp [dishName, hdb, hmatch]
          have hstep : m.step raw = m := by
            unfold Machine.step
            simp only [ht, hm, hdb, hmatch]
            simp
          rw [hstep]
          intro ho
          exact ⟨hm, (h ho).2.skip_line hh hdn hbt⟩
      | false =>
        have hdn : dishName raw = none := by simp [dishName, hdb]
        cases hb : startsWith (trim raw) bullet with
        | true =>
          have hbt : benefitText raw = some (trim (replaceBullet (trim raw))) := by
            simp [benefitText, hdb, hb]
          cases ho : m.dishOpen with
          | true =>
            have hstep : m.step raw = { m with
                plan := m.plan.withDishes
                  (addBenefit (m.plan.dishes m.cur) (trim (replaceBullet (trim raw)))) m.cur } := by
              unfold Machine.step
              simp only [ht, hm, hdb, hb, ho]
              simp
            rw [hstep]
            intro _
            refine ⟨hm, ?_⟩
            simp only [MealPlan.dishes_withDishes _ _ _ _ hm, if_true]
            exact (h ho).2.benefit_line hh hdn hbt
          | false =>
            have hstep : m.step raw = m := by
              unfold Machine.step
              simp [ht, hm, hdb, hb, ho, hfl]
            rw [hstep]
            intro ho2
            rw [ho] at ho2
            cases ho2
        | false =>
          have hbt : benefitText raw = none := by simp [benefitText, hb]
          have hstep : m.step raw = m := by
            unfold Machine.step
            simp [ht, hm, hdb, hb]
          rw [hstep]
          intro ho
          exact ⟨hm, (h ho).2.skip_line hh hdn hbt⟩

theorem OpenDish.run_open (lines : List Str) {seen : List Str} {m : Machine}
    (h : OpenDish seen m) : OpenDish (seen ++ lines) (m.run lines) := by
  induction lines generalizing seen m with
  | nil => simpa [Machine.run_nil] using h
  | cons l ls ih =>
    have := ih (h.step_open l)
    rw [List.append_assoc] at this
    exact this

/-- C15. Parse-state invariant: after any lines, `currentDish` is set only in a
meal section, it is the last element of the current section's array and the
last dish of the current section's sequence, it was opened by a dish line that
no header follows, and its benefits are exactly what the lines after that dish
line contribute, so every accepted benefit went to the most recently opened
dish. -/
theorem parse_state_invariant (d : List Str) :
    ∃ st, scanFrom State.init d = .ok st ∧
      ∀ r, st.currentDish = some r →
        isMeal st.currentSection = true ∧
        (∃ front, st.sections.getDishes (st.currentSection.getD []) = some (front ++ [r])) ∧
        (st.result.dishes (sectionOf st.currentSection)).getLast? = some (deref st.heap r) ∧
        ∃ pre l post, d = pre ++ l :: post ∧
          (∀ x ∈ l :: post, isHeader x = false) ∧
          dishName l = some (deref st.heap r).dish ∧
          (∀ x ∈ post, dishName x = none) ∧
          (deref st.heap r).benefits = post.filterMap benefitText := by
  obtain ⟨st, hst, wf, sim⟩ :=
    scanFrom_sim d State.init Machine.init State.init_wf sim_init
  refine ⟨st, hst, ?_⟩
  intro r hr
  have hms : (sectionOf st.currentSection).isMeal = true := wf.dish_meal (by simp [hr])
  obtain ⟨arr, harr, hlast⟩ := wf.meal_defined hms
  obtain ⟨front, hfront⟩ := hlast r hr
  obtain ⟨-, ho, frontE, hE⟩ := open_dish_last wf sim hr
  have hinv : OpenDish d (Machine.init.run d) := by
    simpa using OpenDish.run_open d OpenDish.init_open
  obtain ⟨-, front2, e, pre, l, post, h1, h2, h3, h4, h5, h6⟩ := hinv ho
  have he : e = deref st.heap r := by
    rw [hE] at h1
    have := List.append_inj' h1 rfl
    simpa using this.2.symm
  subst he
  refine ⟨by rw [isMeal_eq]; exact hms, ⟨front, ?_⟩, ?_, pre, l, post, h2, h3, h4, h5, h6⟩
  · rw [getDishes_eq _ _ hms, harr, hfront]
  · rw [sim.plan, sim.cur, hE]
    simp

/-! ## Case of header labels -/

theorem sameLetter_cases {a b : Char} (h : sameLetter a b = true) :
    a = b ∨ (65 ≤ a.toNat ∧ a.toNat ≤ 122 ∧ 65 ≤ b.toNat ∧ b.toNat ≤ 122 ∧
      toLowerChar a = toLowerChar b) := by
  simp only [sameLetter, isUpperAscii, Bool.or_eq_true, beq_iff_eq, Bool.and_eq_true,
    decide_eq_true_eq] at h
  rcases h with (h | ⟨⟨h1, h2⟩, h3⟩) | ⟨⟨h1, h2⟩, h3⟩
  · exact Or.inl h
  · right
    refine ⟨h1, by omega, by omega, by omega, ?_⟩
    have hb : toLowerChar b = [b] := by
      unfold toLowerChar
      simp only []
      rw [if_neg (by omega), if_neg (by omega), if_neg (by omega)]
    rw [hb]
    unfold toLowerChar
    simp only []
    rw [if_pos ⟨h1, h2⟩, ← h3, Char.ofNat_toNat]
  · right
    refine ⟨by omega, by omega, h1, by omega, ?_⟩
    have ha : toLowerChar a = [a] := by
      unfold toLowerChar
      simp only []
      rw [if_neg (by omega), if_neg (by omega), if_neg (by omega)]
    rw [ha]
    unfold toLowerChar
    simp only []
    rw [if_pos ⟨h1, h2⟩, ← h3, Char.ofNat_toNat]

theorem isWhiteSpace_of_letter {a : Char} (h1 : 65 ≤ a.toNat) (h2 : a.toNat ≤ 122) :
    isWhiteSpace a = false := by
  simp only [isWhiteSpace, Bool.or_eq_false_iff, beq_eq_false_iff_ne, ne_eq, Bool.and_eq_false_imp,
    decide_eq_true_eq, decide_eq_false_iff_not]
  omega

theorem sameLetter_toLowerChar {a b : Char} (h : sameLetter a b = true) :
    toLowerChar a = toLowerChar b := by
  rcases sameLetter_cases h with rfl | ⟨-, -, -, -, e⟩
  · rfl
  · exact e

theorem sameLetter_isWhiteSpace {a b : Char} (h : sameLetter a b = true) :
    isWhiteSpace a = isWhiteSpace b := by
  rcases sameLetter_cases h with rfl | ⟨h1, h2, h3, h4, -⟩
  · rfl
  · rw [isWhiteSpace_of_letter h1 h2, isWhiteSpace_of_letter h3 h4]

theorem sameLetter_hash {a b : Char} (h : sameLetter a b = true) :
    (a == '#') = (b == '#') := by
  rcases sameLetter_cases h with rfl | ⟨h1, -, h3, -, -⟩
  · rfl
  · have ha : (a == '#') = false := by
      rw [beq_eq_false_iff_ne]
      rintro rfl
      revert h1
      decide
    have hb : (b == '#') = false := by
      rw [beq_eq_false_iff_ne]
      rintro rfl
      revert h3
      decide
    rw [ha, hb]

theorem forall₂_of_isCaseVariant {x y : Str} (h : isCaseVariant x y = true) :
    List.Forall₂ (fun a b => sameLetter a b = true) x y := by
  induction x generalizing y with
  | nil =>
    cases y with
    | nil => exact List.Forall₂.nil
    | cons b y => cases h
  | cons a x ih =>
    cases y with
    | nil => cases h
    | cons b y =>
      simp only [isCaseVariant, Bool.and_eq_true] at h
      exact List.Forall₂.cons h.1 (ih h.2)

theorem forall₂_dropWhile {R : Char → Char → Prop} {p : Char → Bool}
    (hp : ∀ a b, R a b → p a = p b) {x y : Str} (h : List.Forall₂ R x y) :
    List.Forall₂ R (x.dropWhile p) (y.dropWhile p) := by
  induction h with
  | nil => exact List.Forall₂.nil
  | @cons a b x y hab hxy ih =>
    rw [List.dropWhile_cons, List.dropWhile_cons, hp a b hab]
    split
    · exact ih
    · exact List.Forall₂.cons hab hxy

theorem forall₂_trim {x y : Str} (h : List.Forall₂ (fun a b => sameLetter a b = true) x y) :
    List.Forall₂ (fun a b => sameLetter a b = true) (trim x) (trim y) := by
  unfold trim
  rw [List.forall₂_reverse_iff]
  apply forall₂_dropWhile (fun a b hab => sameLetter_isWhiteSpace hab)
  rw [List.forall₂_reverse_iff]
  exact forall₂_dropWhile (fun a b hab => sameLetter_isWhiteSpace hab) h

theorem testHeader_cons (a b c : Char) (t : Str) :
    testHeader (a :: b :: c :: t) = (a == '#' && b == '#' && isWhiteSpace c) := by
  unfold testHeader
  split
  · rename_i h
    simp only [List.cons.injEq] at h
    obtain ⟨rfl, rfl, rfl, -⟩ := h
    simp
  · rename_i h
    by_cases ha : a = '#'
    · by_cases hb : b = '#'
      · subst ha hb
        exact absurd rfl (h c t)
      · simp [hb]
    · simp [ha]

theorem testHeader_short (x : Str) (h : x.length < 3) : testHeader x = false := by
  unfold testHeader
  split
  · simp only [List.length_cons] at h
    omega
  · rfl

theorem forall₂_testHeader {x y : Str}
    (h : List.Forall₂ (fun a b => sameLetter a b = true) x y) :
    testHeader x = testHeader y := by
  cases h with
  | nil => rfl
  | cons h1 h =>
    cases h with
    | nil => rw [testHeader_short _ (by simp), testHeader_short _ (by simp)]
    | cons h2 h =>
      cases h with
      | nil => rw [testHeader_short _ (by simp), testHeader_short _ (by simp)]
      | cons h3 h =>
        rw [testHeader_cons, testHeader_cons, sameLetter_hash h1, sameLetter_hash h2,
          sameLetter_isWhiteSpace h3]

theorem forall₂_toLowerCase {x y : Str}
    (h : List.Forall₂ (fun a b => sameLetter a b = true) x y) :
    toLowerCase x = toLowerCase y := by
  unfold toLowerCase
  induction h with
  | nil => rfl
  | cons hab _ ih =>
    rw [List.flatMap_cons, List.flatMap_cons, sameLetter_toLowerChar hab, ih]

theorem forall₂_replaceHeader {x y : Str}
    (h : List.Forall₂ (fun a b => sameLetter a b = true) x y) :
    List.Forall₂ (fun a b => sameLetter a b = true) (replaceHeader x) (replaceHeader y) := by
  unfold replaceHeader
  rw [forall₂_testHeader h]
  split
  · exact forall₂_dropWhile (fun a b hab => sameLetter_isWhiteSpace hab)
      (List.forall₂_drop 2 h)
  · exact h

/-- A header line and a case variant of it are the same line to the scanner. -/
theorem Machine.step_caseVariant (m : Machine) {x y : Str} (hx : isHeader x = true)
    (h : isCaseVariant x y = true) : m.step y = m.step x := by
  have hf := forall₂_trim (forall₂_of_isCaseVariant h)
  have ht : testHeader (trim x) = true := hx
  have hty : testHeader (trim y) = true := by rw [← forall₂_testHeader hf]; exact ht
  rw [Machine.header_step m x ht, Machine.header_step m y hty,
    forall₂_toLowerCase (forall₂_replaceHeader hf)]

theorem Machine.run_headerCaseVariant (xs ys : List Str)
    (h : isHeaderCaseVariant xs ys = true) (m : Machine) : m.run ys = m.run xs := by
  induction xs generalizing ys m with
  | nil =>
    cases ys with
    | nil => rfl
    | cons y ys => cases h
  | cons x xs ih =>
    cases ys with
    | nil => cases h
    | cons y ys =>
      simp only [isHeaderCaseVariant, Bool.and_eq_true, Bool.or_eq_true, beq_iff_eq] at h
      rw [Machine.run_cons, Machine.run_cons]
      rcases h.1 with rfl | ⟨hx, hv⟩
      · exact ih ys h.2 _
      · rw [Machine.step_caseVariant m hx hv]
        exact ih ys h.2 _

theorem Machine.dishes_after_header (p : MealPlan) (k : Sec) (hk : k.isMeal = true)
    {name : Str} (hn : isPlainText name = true) :
    (Machine.step ⟨p.restart k, k, false⟩ (dishLine 1 name)).plan.dishes k =
      [{ dish := name, benefits := [] }] := by
  have hr : p.restart k = p.withDishes [] k := by
    cases k <;> first | rfl | cases hk
  rw [hr, Machine.step_dishLine p [] k false 1 hk hn, MealPlan.dishes_withDishes _ _ _ _ hk,
    if_pos rfl]
  rfl

theorem Machine.foods_after_header (p : MealPlan) (k : Sec) (hk : k.isFoodList = true)
    {item : Str} (hi : isPlainText item = true) :
    (Machine.step ⟨p.restart k, k, false⟩ (itemLine item)).plan.foods k = [item] := by
  have hr : p.restart k = p.withFoods [] k := by
    cases k <;> first | rfl | cases hk
  rw [hr, Machine.step_itemLine p [] k false hk hi, MealPlan.foods_withFoods _ _ _ _ hk,
    if_pos rfl]
  rfl

theorem Machine.run_header_line (d : List Str) {h : Str} {k : Sec}
    (hh : headerSection h = some k) (l : Str) :
    Machine.init.run (d ++ [h, l]) =
      Machine.step ⟨(Machine.init.run d).plan.restart k, k, false⟩ l := by
  have e : d ++ [h, l] = (d ++ [h]) ++ [l] := by simp
  rw [e, Machine.run_append, Machine.run_header d hh, Machine.run_cons, Machine.run_nil]

/-- C13. Header labels are matched case-insensitively against the vocabulary.
Changing the case of ASCII letters in header lines leaves the result unchanged;
a header whose lower-cased label is one of the five labels sends the dish or
the item that follows it to the field of that label; a header with any other
label sends it nowhere. -/
theorem header_case_insensitive (xs ys d : List Str) (hline label name item : Str)
    (h : isHeaderCaseVariant xs ys = true) (hl : headerLabel hline = some label)
    (hn : isPlainText name = true) (hi : isPlainText item = true) :
    parseLines ys = parseLines xs ∧
    (∃ p q, parseLines (d ++ [hline, dishLine 1 name]) = .ok p ∧
      parseLines (d ++ [hline, itemLine item]) = .ok q ∧
      (label = kBreakfast → p.breakfast = [{ dish := name, benefits := [] }]) ∧
      (label = kLunch → p.lunch = [{ dish := name, benefits := [] }]) ∧
      (label = kDinner → p.dinner = [{ dish := name, benefits := [] }]) ∧
      (label = kRecommendedFoods → q.recommended = [item]) ∧
      (label = kFoodsToAvoid → q.avoid = [item])) ∧
    (label ∉ vocabulary →
      parseLines (d ++ [hline, dishLine 1 name]) = parseLines d ∧
      parseLines (d ++ [hline, itemLine item]) = parseLines d) := by
  have hs := headerSection_of_headerLabel hl
  refine ⟨?_, ⟨_, _, parseLines_eq _, parseLines_eq _, ?_⟩, ?_⟩
  · rw [parseLines_eq, parseLines_eq, Machine.run_headerCaseVariant xs ys h]
  · rw [Machine.run_header_line d hs, Machine.run_header_line d hs]
    refine ⟨?_, ?_, ?_, ?_, ?_⟩ <;> intro e <;> subst e
    · exact Machine.dishes_after_header _ .breakfast rfl hn
    · exact Machine.dishes_after_header _ .lunch rfl hn
    · exact Machine.dishes_after_header _ .dinner rfl hn
    · exact Machine.foods_after_header _ .recommended rfl hi
    · exact Machine.foods_after_header _ .avoid rfl hi
  · intro hv
    rw [sectionOf_of_not_mem_vocabulary hv] at hs
    have hd : testHeader (trim (dishLine 1 name)) = false := by
      rw [trim_dishLine 1 hn, testHeader_dishLine]
    have hit : testHeader (trim (itemLine item)) = false := by
      rw [trim_itemLine hi, testHeader_itemLine]
    rw [parseLines_eq, parseLines_eq, parseLines_eq, Machine.run_header_line d hs,
      Machine.run_header_line d hs, Machine.step_other _ _ hd rfl,
      Machine.step_other _ _ hit rfl]
    exact ⟨rfl, rfl⟩

theorem header_case_insensitive_witness :
    parseLines ["## BREAKFAST".toList, "- **Dish 1**: Poha".toList,
        "  ## foods TO avoid \r".toList, "- Sugar".toList] =
      parseLines ["## Breakfast".toList, "- **Dish 1**: Poha".toList,
        "  ## Foods to Avoid \r".toList, "- Sugar".toList] ∧
    (∃ p q, parseLines (["## Dinner".toList, "- **Dish 1**: Dal".toList] ++
        ["## LuNcH".toList, dishLine 1 "Roti".toList]) = .ok p ∧
      parseLines (["## Dinner".toList, "- **Dish 1**: Dal".toList] ++
        ["## LuNcH".toList, itemLine "Sugar".toList]) = .ok q ∧
      (kLunch = kBreakfast → p.breakfast = [{ dish := "Roti".toList, benefits := [] }]) ∧
      (kLunch = kLunch → p.lunch = [{ dish := "Roti".toList, benefits := [] }]) ∧
      (kLunch = kDinner → p.dinner = [{ dish := "Roti".toList, benefits := [] }]) ∧
      (kLunch = kRecommendedFoods → q.recommended = ["Sugar".toList]) ∧
      (kLunch = kFoodsToAvoid → q.avoid = ["Sugar".toList])) ∧
    (kLunch ∉ vocabulary →
      parseLines (["## Dinner".toList, "- **Dish 1**: Dal".toList] ++
        ["## LuNcH".toList, dishLine 1 "Roti".toList]) =
          parseLines ["## Dinner".toList, "- **Dish 1**: Dal".toList] ∧
      parseLines (["## Dinner".toList, "- **Dish 1**: Dal".toList] ++
        ["## LuNcH".toList, itemLine "Sugar".toList]) =
          parseLines ["## Dinner".toList, "- **Dish 1**: Dal".toList]) :=
  header_case_insensitive
    ["## Breakfast".toList, "- **Dish 1**: Poha".toList, "  ## Foods to Avoid \r".toList,
      "- Sugar".toList]
    ["## BREAKFAST".toList, "- **Dish 1**: Poha".toList, "  ## foods TO avoid \r".toList,
      "- Sugar".toList]
    ["## Dinner".toList, "- **Dish 1**: Dal".toList]
    "## LuNcH".toList kLunch "Roti".toList "Sugar".toList
    (by decide) (by decide) (by decide) (by decide)

end DietMind
